import Mathlib

/-!
Shallow embedding of the fastme matching engine (engine.go) and proofs about
its claimed properties.

Modelling conventions:

* The abstract `Value` interface is instantiated with `Int`.  All engine code
  is generic over `Value`; `Add`, `Sub`, `Mul` become `+`, `-`, `*`, `Cmp a b < 0` becomes
  `a < b`, `Sign v > 0` becomes `0 < v`, and the absent (`nil`) value that the
  collaborators treat as zero becomes the literal `0`.  `Hash` is injective on
  the value domain, so the per-side `prices` hash map keyed by `Hash` is
  modelled as lookup by price equality.
* A `*list.Element` (the stable FIFO handle stored in the `orders` lookup map)
  is modelled as a `Nat` handle `eid`, allocated from a counter `nextEid` in
  the engine, paired with the order payload.  Mutation of the pointed-to order
  (`UpdateQuantity`, `orderEl.Value = n`) becomes replacement of the payload
  at that handle.
* The red-black tree of price levels is modelled by its ordered-map contract
  (spec §4.A): a list of levels kept in strictly ascending price order.
  `getMin`/`getMax` are head/last of the list and the `lessThan`/`greaterThan`
  iteration of `price`/`quantity` is the corresponding list traversal.
* Wallets are external collaborators; balances and in-order amounts are
  modelled as association lists keyed by (wallet id, asset name), with the
  documented contract that an absent key reads as the zero value.
* Listener callbacks are modelled as an emitted event trace (the listener is
  pure notification; its identity does not feed back into the engine).
* The matching loop of `PlaceOrder` is fuel-bounded; `none` means the Go loop
  (`for` over best levels / queue fronts) does not terminate, which is really
  possible from pathological book states (e.g. after `PushOrder` with a
  duplicated order id).  The supplied fuel (total resting order count + 2)
  bounds every terminating run of the source loop, so `some` results match
  the source exactly.
-/

namespace Fastme

/-- Engine sentinel errors (engine.go `ErrInvalidQuantity` … `ErrOrderNotFound`). -/
inductive Err where
  | invalidQuantity
  | invalidPrice
  | invalidOrder
  | insufficientQuantity
  | insufficientFunds
  | orderExists
  | orderNotFound
deriving DecidableEq, Repr

/-- The abstract numeric `Value`, instantiated with `Int`. -/
abbrev Value := Int

/-- The `Order` interface data: id, owner wallet (by id), side, mutable
remaining quantity, limit price. -/
structure Order where
  id : String
  owner : String
  sell : Bool
  quantity : Value
  price : Value
deriving DecidableEq, Repr

/-- `Volume`: total price and quantity done of one fill. -/
structure Volume where
  price : Value
  quantity : Value
deriving DecidableEq, Repr

/-- One FIFO node: a stable handle (`*list.Element`) plus the order payload. -/
structure Elem where
  eid : Nat
  ord : Order
deriving DecidableEq, Repr

/-- A price level (`queue`): price, cached cumulative volume, FIFO of orders
(front first). -/
structure Queue where
  price : Value
  volume : Value
  orders : List Elem
deriving DecidableEq, Repr

/-- A book side (`side`): the price levels in strictly ascending price order
(modelling the prices hash map plus the red-black price tree), and the
resting-order counter. -/
structure Side where
  levels : List Queue
  numOrders : Nat
deriving DecidableEq, Repr

/-- The engine: assets, order-id lookup (id ↦ element handle), both sides, and
the allocation counter for element handles. -/
structure Engine where
  base : String
  quote : String
  orders : List (String × Nat)
  asks : Side
  bids : Side
  nextEid : Nat
deriving DecidableEq, Repr

/-- All wallets seen by the engine: (wallet id, asset) ↦ balance / in-order.
An absent key reads as zero (spec §6: "An absent-key read returns the
zero-Value"). -/
structure Wallets where
  balance : List ((String × String) × Value)
  inOrder : List ((String × String) × Value)
deriving DecidableEq, Repr

/-- Listener notifications, recorded as a trace in emission order. -/
inductive Event where
  | incomingPartialEv (o : Order) (v : Volume)
  | incomingDoneEv (o : Order) (v : Volume)
  | incomingPlacedEv (o : Order)
  | existingPartialEv (o : Order) (v : Volume)
  | existingDoneEv (o : Order) (v : Volume)
  | existingCanceledEv (o : Order)
  | balanceChangedEv (wid : String) (asset : String) (v : Value)
  | inOrderChangedEv (wid : String) (asset : String) (v : Value)
deriving DecidableEq, Repr

/-- The `FeeHandler` collaborator. -/
structure FeeHandler where
  handleFeeMaker : Order → String → Value → Value
  handleFeeTaker : Order → String → Value → Value

/-- The default fee handler (`emptyFeeHandler`): identity on the credited
value. -/
def emptyFeeHandler : FeeHandler := ⟨fun _ _ v => v, fun _ _ v => v⟩

/-! ### Association-list helpers (Go `map` operations) -/

/-- Map read: first binding of `k`, if any. -/
def assocGet {α β : Type} [DecidableEq α] (l : List (α × β)) (k : α) : Option β :=
  (l.find? (fun kv => decide (kv.1 = k))).map (·.2)

/-- Map write: overwrite the binding of `k`, or append it. -/
def assocSet {α β : Type} [DecidableEq α] : List (α × β) → α → β → List (α × β)
  | [], k, v => [(k, v)]
  | kv :: t, k, v => if kv.1 = k then (k, v) :: t else kv :: assocSet t k v

/-- Map delete: remove the binding of `k`. -/
def assocDel {α β : Type} [DecidableEq α] : List (α × β) → α → List (α × β)
  | [], _ => []
  | kv :: t, k => if kv.1 = k then t else kv :: assocDel t k

/-! ### Wallet collaborator operations -/

/-- `Wallet.Balance`: zero for an absent key. -/
def Wallets.getBalance (w : Wallets) (wid asset : String) : Value :=
  (assocGet w.balance (wid, asset)).getD 0

/-- `Wallet.UpdateBalance`. -/
def Wallets.setBalance (w : Wallets) (wid asset : String) (v : Value) : Wallets :=
  { w with balance := assocSet w.balance (wid, asset) v }

/-- `Wallet.InOrder`: zero for an absent key. -/
def Wallets.getInOrder (w : Wallets) (wid asset : String) : Value :=
  (assocGet w.inOrder (wid, asset)).getD 0

/-- `Wallet.UpdateInOrder`. -/
def Wallets.setInOrder (w : Wallets) (wid asset : String) (v : Value) : Wallets :=
  { w with inOrder := assocSet w.inOrder (wid, asset) v }

/-! ### Price-level queue operations -/

/-- `queue.append`: `volume = o.Quantity().Add(q.volume)`; push back. -/
def Queue.appendElem (q : Queue) (el : Elem) : Queue :=
  { q with volume := el.ord.quantity + q.volume, orders := q.orders ++ [el] }

/-- `queue.remove`: `volume = q.volume.Sub(e.Value.Quantity())`; unlink the
element. -/
def Queue.removeElem (q : Queue) (el : Elem) : Queue :=
  { q with volume := q.volume - el.ord.quantity,
           orders := q.orders.eraseP (fun x => decide (x.eid = el.eid)) }

/-- `queue.updateQuantity`: `volume = volume.Sub(old).Add(qty)`; mutate the
pointed-to order's quantity in place. -/
def Queue.updateQty (q : Queue) (eid : Nat) (qty : Value) : Queue :=
  match q.orders.find? (fun x => decide (x.eid = eid)) with
  | none => q
  | some el =>
    { q with volume := q.volume - el.ord.quantity + qty,
             orders := q.orders.map (fun x =>
               if x.eid = eid then ⟨x.eid, { x.ord with quantity := qty }⟩ else x) }

/-! ### Book-side operations -/

/-- `side.prices[p.Hash()]` (Hash is injective, so keyed by the price). -/
def Side.findLevel (s : Side) (p : Value) : Option Queue :=
  s.levels.find? (fun l => decide (l.price = p))

/-- `priceTree.put` for a fresh key: insert keeping ascending price order. -/
def insertLevel (q : Queue) : List Queue → List Queue
  | [] => [q]
  | l :: ls => if q.price < l.price then q :: l :: ls else l :: insertLevel q ls

/-- `side.append`: append to the existing level, or create a new level
(`newQueue` starts with nil volume = 0) and index it. -/
def Side.appendElem (s : Side) (el : Elem) : Side :=
  let p := el.ord.price
  if (s.levels.find? (fun l => decide (l.price = p))).isSome then
    { s with levels := s.levels.map (fun l => if l.price = p then l.appendElem el else l),
             numOrders := s.numOrders + 1 }
  else
    { s with levels := insertLevel (Queue.appendElem ⟨p, 0, []⟩ el) s.levels,
             numOrders := s.numOrders + 1 }

/-- `side.remove`: remove the element from the level at its price; drop the
level when its FIFO empties. -/
def Side.removeElem (s : Side) (el : Elem) : Side :=
  let p := el.ord.price
  let ls := s.levels.map (fun l => if l.price = p then l.removeElem el else l)
  { s with levels := ls.filter (fun l => !(decide (l.price = p) && l.orders.isEmpty)),
           numOrders := s.numOrders - 1 }

/-- `side.maxPrice` (via `priceTree.getMax`). -/
def Side.maxPrice (s : Side) : Option Queue := s.levels.getLast?

/-- `side.minPrice` (via `priceTree.getMin`). -/
def Side.minPrice (s : Side) : Option Queue := s.levels.head?

/-- Find the element with the given handle on this side. -/
def Side.findEid (s : Side) (eid : Nat) : Option Elem :=
  s.levels.findSome? (fun l => l.orders.find? (fun x => decide (x.eid = eid)))

/-- Set the quantity of the element `eid` inside the level priced `p`
(`bestPriceQueue.updateQuantity` in the match loop). -/
def Side.updateLevelQty (s : Side) (p : Value) (eid : Nat) (qty : Value) : Side :=
  { s with levels := s.levels.map (fun l => if l.price = p then l.updateQty eid qty else l) }

/-! ### Engine internals -/

/-- Dereference an element handle (the `*list.Element` stored in the lookup
map points into one of the two sides). -/
def Engine.findElem (e : Engine) (eid : Nat) : Option Elem :=
  (e.asks.findEid eid).orElse (fun _ => e.bids.findEid eid)

/-- `engine.push`: allocate a fresh element, append it to the side of the
order, record it in the lookup map. -/
def Engine.push (e : Engine) (o : Order) : Engine :=
  let el : Elem := ⟨e.nextEid, o⟩
  if o.sell then
    { e with asks := e.asks.appendElem el,
             orders := assocSet e.orders o.id e.nextEid,
             nextEid := e.nextEid + 1 }
  else
    { e with bids := e.bids.appendElem el,
             orders := assocSet e.orders o.id e.nextEid,
             nextEid := e.nextEid + 1 }

/-- `engine.pull`: look the id up; if found, remove the pointed-to element
from the side given by the stored order's `Sell()` and delete the lookup
entry.  Unknown ids are a no-op. -/
def Engine.pull (e : Engine) (o : Order) : Engine :=
  match assocGet e.orders o.id with
  | none => e
  | some eid =>
    match e.findElem eid with
    | none => e
    | some el =>
      if el.ord.sell then
        { e with asks := e.asks.removeElem el, orders := assocDel e.orders o.id }
      else
        { e with bids := e.bids.removeElem el, orders := assocDel e.orders o.id }

/-- The levels walked by the market-price probe and by matching, best price
first: bids from `maxPrice` by `lessThan` for a sell, asks from `minPrice` by
`greaterThan` for a buy. -/
def Engine.oppLevels (e : Engine) (sell : Bool) : List Queue :=
  if sell then e.bids.levels.reverse else e.asks.levels

/-- The `engine.price` loop with accumulator `acc` (the `price` local,
initially nil = 0). -/
def priceWalk (acc quantity : Value) : List Queue → Except Err Value
  | [] => if 0 < quantity then .error .insufficientQuantity else .ok acc
  | l :: ls =>
    if 0 < quantity then
      if quantity < l.volume then .ok (l.price * quantity + acc)
      else priceWalk (l.price * l.volume + acc) (quantity - l.volume) ls
    else .ok acc

/-- `engine.price`: market price of the given quantity against the opposing
side. -/
def Engine.price (e : Engine) (sell : Bool) (quantity : Value) : Except Err Value :=
  priceWalk 0 quantity (e.oppLevels sell)

/-- `engine.CanPlace`.  `quantity`/`price` are `Option` because the interface
values may be nil. -/
def Engine.canPlace (e : Engine) (w : Wallets) (wid : String) (sell : Bool)
    (quantity price : Option Value) : Option Err :=
  match quantity with
  | none => some .invalidQuantity
  | some q =>
    if q ≤ 0 then some .invalidQuantity
    else
      match price with
      | none => some .invalidPrice
      | some p =>
        if p < 0 then some .invalidPrice
        else
          match (if p = 0 then e.price sell q else .ok (p * q)) with
          | .error err => some err
          | .ok marketPrice =>
            if sell then
              if w.getBalance wid e.base < q then some .insufficientFunds else none
            else
              if w.getBalance wid e.quote < marketPrice then some .insufficientFunds else none

/-- `engine.updateBalanceOnExchanged`: credit the received asset (after the
fee hook), then settle the debited asset from in-order (maker) or from the
free balance (taker). -/
def Engine.updateBalanceOnExchanged (e : Engine) (fh : FeeHandler) (w : Wallets)
    (o : Order) (v : Volume) (isMaker : Bool) : Wallets × List Event :=
  let assetInc := if o.sell then e.quote else e.base
  let assetDec := if o.sell then e.base else e.quote
  let valueInc0 := if o.sell then v.price else v.quantity
  let valueDec := if o.sell then v.quantity else v.price
  let valueInc := if isMaker then fh.handleFeeMaker o assetInc valueInc0
                  else fh.handleFeeTaker o assetInc valueInc0
  let valBalance := valueInc + w.getBalance o.owner assetInc
  let w1 := w.setBalance o.owner assetInc valBalance
  if isMaker then
    let valInOrder := w1.getInOrder o.owner assetDec - valueDec
    (w1.setInOrder o.owner assetDec valInOrder,
     [.balanceChangedEv o.owner assetInc valBalance,
      .inOrderChangedEv o.owner assetDec valInOrder])
  else
    let valInOrder := w1.getBalance o.owner assetDec - valueDec
    (w1.setBalance o.owner assetDec valInOrder,
     [.balanceChangedEv o.owner assetInc valBalance,
      .balanceChangedEv o.owner assetDec valInOrder])

/-- `engine.updateBalanceOnPlaced`: move the reserved value of a resting order
from free balance into in-order. -/
def Engine.updateBalanceOnPlaced (e : Engine) (w : Wallets) (o : Order) :
    Wallets × List Event :=
  let asset := if o.sell then e.base else e.quote
  let value := if o.sell then o.quantity else o.price * o.quantity
  let valBalance := w.getBalance o.owner asset - value
  let w1 := w.setBalance o.owner asset valBalance
  let valInOrder := value + w1.getInOrder o.owner asset
  (w1.setInOrder o.owner asset valInOrder,
   [.balanceChangedEv o.owner asset valBalance,
    .inOrderChangedEv o.owner asset valInOrder])

/-- The match comparator of `PlaceOrder`: a sell matches a bid level with
`o.Price().Cmp(level) ≤ 0`, a buy matches an ask level with `≥ 0`; a market
order (price sign 0) matches unconditionally. -/
def crosses (taker : Order) (levelPrice : Value) : Bool :=
  if taker.price = 0 then true
  else if taker.sell then decide (taker.price ≤ levelPrice)
  else decide (levelPrice ≤ taker.price)

/-- The best opposing level (`next()` in `PlaceOrder`): bids max for a sell,
asks min for a buy. -/
def Engine.bestOpp (e : Engine) (sell : Bool) : Option Queue :=
  if sell then e.bids.maxPrice else e.asks.minPrice

/-- The opposing side itself. -/
def Engine.opp (e : Engine) (sell : Bool) : Side :=
  if sell then e.bids else e.asks

/-- Replace the opposing side. -/
def Engine.setOpp (e : Engine) (sell : Bool) (s : Side) : Engine :=
  if sell then { e with bids := s } else { e with asks := s }

/-- The matching loop of `PlaceOrder` (the nested side/queue walk flattened:
after every fill the loop re-fetches the best level, which is exactly what the
source's inner/outer loop pair computes, since a partially consumed level
stays best).  Fuel-bounded: `none` models a non-terminating source loop and
is never produced with the fuel `PlaceOrder` supplies unless the source loop
really diverges. -/
def Engine.matchLoop (fh : FeeHandler) :
    Nat → Engine → Wallets → Order → List Event →
    Option (Engine × Wallets × Order × List Event)
  | 0, e, w, taker, evs =>
    match e.bestOpp taker.sell with
    | none => some (e, w, taker, evs)
    | some bq =>
      if 0 < taker.quantity ∧ crosses taker bq.price = true then none
      else some (e, w, taker, evs)
  | fuel + 1, e, w, taker, evs =>
    match e.bestOpp taker.sell with
    | none => some (e, w, taker, evs)
    | some bq =>
      if 0 < taker.quantity ∧ crosses taker bq.price = true then
        match bq.orders.head? with
        | none => none
        | some makerEl =>
          let maker := makerEl.ord
          let makerQty := maker.quantity
          let takerQty := taker.quantity
          if takerQty = makerQty then
            let e1 := e.pull maker
            let volume : Volume := ⟨makerQty * maker.price, makerQty⟩
            let maker1 := { maker with quantity := makerQty - makerQty }
            let taker1 := { taker with quantity := takerQty - takerQty }
            let evs1 := evs ++ [.existingDoneEv maker1 volume, .incomingDoneEv taker1 volume]
            let r1 := e1.updateBalanceOnExchanged fh w maker1 volume true
            let r2 := e1.updateBalanceOnExchanged fh r1.1 taker1 volume false
            Engine.matchLoop fh fuel e1 r2.1 taker1 (evs1 ++ r1.2 ++ r2.2)
          else if makerQty < takerQty then
            let e1 := e.pull maker
            let volume : Volume := ⟨makerQty * maker.price, makerQty⟩
            let maker1 := { maker with quantity := makerQty - makerQty }
            let taker1 := { taker with quantity := takerQty - makerQty }
            let evs1 := evs ++ [.existingDoneEv maker1 volume, .incomingPartialEv taker1 volume]
            let r1 := e1.updateBalanceOnExchanged fh w maker1 volume true
            let r2 := e1.updateBalanceOnExchanged fh r1.1 taker1 volume false
            Engine.matchLoop fh fuel e1 r2.1 taker1 (evs1 ++ r1.2 ++ r2.2)
          else
            let volume : Volume := ⟨takerQty * maker.price, takerQty⟩
            let e1 := e.setOpp taker.sell
              ((e.opp taker.sell).updateLevelQty bq.price makerEl.eid (makerQty - takerQty))
            let maker1 := { maker with quantity := makerQty - takerQty }
            let taker1 := { taker with quantity := takerQty - takerQty }
            let evs1 := evs ++ [.existingPartialEv maker1 volume, .incomingDoneEv taker1 volume]
            let r1 := e1.updateBalanceOnExchanged fh w maker1 volume true
            let r2 := e1.updateBalanceOnExchanged fh r1.1 taker1 volume false
            Engine.matchLoop fh fuel e1 r2.1 taker1 (evs1 ++ r1.2 ++ r2.2)
      else some (e, w, taker, evs)

/-- `engine.PlaceOrder`.  Returns `none` when the source's matching loop would
not terminate; otherwise `some (err?, engine, wallets, events)`. -/
def Engine.placeOrder (fh : FeeHandler) (e : Engine) (w : Wallets) (o : Order) :
    Option (Option Err × Engine × Wallets × List Event) :=
  if (assocGet e.orders o.id).isSome then some (some .orderExists, e, w, [])
  else
    match e.canPlace w o.owner o.sell (some o.quantity) (some o.price) with
    | some err => some (some err, e, w, [])
    | none =>
      match Engine.matchLoop fh (e.asks.numOrders + e.bids.numOrders + 2) e w o [] with
      | none => none
      | some (e1, w1, o1, evs) =>
        if 0 < o1.quantity then
          let e2 := e1.push o1
          let r := e2.updateBalanceOnPlaced w1 o1
          some (none, e2, r.1, evs ++ Event.incomingPlacedEv o1 :: r.2)
        else some (none, e1, w1, evs)

/-- `engine.ReplaceOrder`. -/
def Engine.replaceOrder (e : Engine) (w : Wallets) (o n : Order) :
    Option Err × Engine × Wallets × List Event :=
  match assocGet e.orders o.id with
  | none => (some .orderNotFound, e, w, [])
  | some eid =>
    match e.findElem eid with
    | none => (some .invalidOrder, e, w, [])
    | some el =>
      let o := el.ord
      if o.owner ≠ n.owner then (some .invalidOrder, e, w, [])
      else if o.sell ≠ n.sell then (some .invalidOrder, e, w, [])
      else if o.price ≠ n.price then (some .invalidOrder, e, w, [])
      else if n.quantity ≤ 0 then (some .invalidQuantity, e, w, [])
      else
        let asset := if o.sell then e.base else e.quote
        let oldValue := if o.sell then o.quantity else o.price * o.quantity
        let newValue := if o.sell then n.quantity else n.price * n.quantity
        let newBalance := oldValue - newValue + w.getBalance o.owner asset
        if newBalance < 0 then (some .insufficientFunds, e, w, [])
        else
          match (if o.sell then e.asks else e.bids).findLevel n.price with
          | none => (some .invalidPrice, e, w, [])
          | some _ =>
            let newInOrder := newValue - oldValue + w.getInOrder o.owner asset
            let upd := fun (s : Side) =>
              { s with levels := s.levels.map (fun l =>
                  if l.price = n.price then
                    { l with volume := n.quantity - o.quantity + l.volume,
                             orders := l.orders.map (fun x =>
                               if x.eid = eid then ⟨x.eid, n⟩ else x) }
                  else l) }
            let e1 := if o.sell then { e with asks := upd e.asks }
                      else { e with bids := upd e.bids }
            let e2 := { e1 with orders := assocSet (assocDel e1.orders o.id) n.id eid }
            let w1 := w.setBalance o.owner asset newBalance
            let w2 := w1.setInOrder o.owner asset newInOrder
            (none, e2, w2,
             [.balanceChangedEv o.owner asset newBalance,
              .inOrderChangedEv o.owner asset newInOrder])

/-- `engine.CancelOrder`: pull (no-op on unknown ids), then refund the
passed-in order's value to its owner and emit the three notifications. -/
def Engine.cancelOrder (e : Engine) (w : Wallets) (o : Order) :
    Engine × Wallets × List Event :=
  let e1 := e.pull o
  let asset := if o.sell then e.base else e.quote
  let value := if o.sell then o.quantity else o.quantity * o.price
  let valBalance := value + w.getBalance o.owner asset
  let w1 := w.setBalance o.owner asset valBalance
  let valInOrder := w1.getInOrder o.owner asset - value
  let w2 := w1.setInOrder o.owner asset valInOrder
  (e1, w2, [.balanceChangedEv o.owner asset valBalance,
            .inOrderChangedEv o.owner asset valInOrder,
            .existingCanceledEv o])

/-- `engine.PushOrder`: append with no matching, no validation, no balance
movement. -/
def Engine.pushOrder (e : Engine) (o : Order) : Engine := e.push o

/-- `NewEngine`. -/
def newEngine (base quote : String) : Engine :=
  { base := base, quote := quote, orders := [], asks := ⟨[], 0⟩, bids := ⟨[], 0⟩, nextEid := 0 }

/-! ### Specification-side definitions

These definitions are written from the words of the specification / claims
(not from the source); the claim theorems relate them to the source
definitions above. -/

/-- The `CanPlace` contract as the specification states it: `InvalidQuantity`
exactly when the quantity is absent or its sign is ≤ 0; otherwise
`InvalidPrice` exactly when the price is absent or its sign is < 0; otherwise
for sign-zero (market) price the market-price probe is consulted and its
failure propagated; otherwise `InsufficientFunds` exactly when the wallet's
base balance is below the quantity (sell) resp. its quote balance is below
the market price (buy); nil in every remaining case. -/
def canPlaceSpec (e : Engine) (w : Wallets) (wid : String) (sell : Bool)
    (quantity price : Option Value) : Option Err :=
  match quantity with
  | none => some .invalidQuantity
  | some q =>
    if Int.sign q ≤ 0 then some .invalidQuantity
    else
      match price with
      | none => some .invalidPrice
      | some p =>
        if Int.sign p < 0 then some .invalidPrice
        else if Int.sign p = 0 then
          match e.price sell q with
          | .error err => some err
          | .ok marketPrice =>
            if sell then
              if w.getBalance wid e.base < q then some .insufficientFunds else none
            else
              if w.getBalance wid e.quote < marketPrice then some .insufficientFunds else none
        else
          if sell then
            if w.getBalance wid e.base < q then some .insufficientFunds else none
          else
            if w.getBalance wid e.quote < p * q then some .insufficientFunds else none

/-- The total resting volume of a walked side (`Σ level.volume`). -/
def levelsVolume (ls : List Queue) : Value := (ls.map (·.volume)).sum

/-- The market-price formula from the specification of the probe: walk the
levels best price first; take the whole level while the remaining quantity is
at least the level volume, adding `price · volume`; at the first level whose
volume exceeds the remainder add `price · remainder`. -/
def fillSum (q : Value) : List Queue → Value
  | [] => 0
  | l :: ls => if l.volume ≤ q then l.price * l.volume + fillSum (q - l.volume) ls
               else l.price * q

/-- `Value.Cmp`: 1 when the receiver is greater, -1 when smaller, 0 when
equal. -/
def cmpValue (a b : Value) : Int := if b < a then 1 else if a < b then -1 else 0

/-- The `ReplaceOrder` validation cascade as the claim states it:
`OrderNotFound` when the old id is not resting; `InvalidOrder` when the
resting order's owner, side or price (compared via `Cmp`) differs from the
new order's; `InvalidQuantity` exactly when the new order's quantity has sign
≤ 0; `InsufficientFunds` when the wallet balance plus the old reserved value
minus the new value is negative; `InvalidPrice` when the target price is no
longer a level of the side — in that order of precedence.  (The handle
dereference between the lookup and the payload checks mirrors the source's
element type assertion and cannot fail on real books.) -/
def replaceErrSpec (e : Engine) (w : Wallets) (o n : Order) : Option Err :=
  match assocGet e.orders o.id with
  | none => some .orderNotFound
  | some eid =>
    match e.findElem eid with
    | none => some .invalidOrder
    | some el =>
      if el.ord.owner ≠ n.owner ∨ el.ord.sell ≠ n.sell ∨ cmpValue el.ord.price n.price ≠ 0 then
        some .invalidOrder
      else if Int.sign n.quantity ≤ 0 then some .invalidQuantity
      else if w.getBalance el.ord.owner (if el.ord.sell then e.base else e.quote)
             + (if el.ord.sell then el.ord.quantity else el.ord.price * el.ord.quantity)
             - (if el.ord.sell then n.quantity else n.price * n.quantity) < 0 then
        some .insufficientFunds
      else if ((if el.ord.sell then e.asks else e.bids).findLevel n.price).isNone then
        some .invalidPrice
      else none

/-- Settlement notifications: balance or in-order changes. -/
def isSettlementEv : Event → Prop
  | .balanceChangedEv _ _ _ => True
  | .inOrderChangedEv _ _ _ => True
  | _ => False

/-- Per-event soundness of a fill trace relative to the full trace `evsAll`:
every fill volume carries `price = quantity · (maker price)` for the maker
order of its own fill pair; incoming (taker) fill events share their volume
with an existing (maker) event, so the taker's limit price never prices a
fill. -/
def isFillGood (evsAll : List Event) : Event → Prop
  | .existingDoneEv m v => v.price = v.quantity * m.price
  | .existingPartialEv m v => v.price = v.quantity * m.price
  | .incomingDoneEv _ v => ∃ m,
      (Event.existingDoneEv m v ∈ evsAll ∨ Event.existingPartialEv m v ∈ evsAll)
      ∧ v.price = v.quantity * m.price
  | .incomingPartialEv _ v => ∃ m,
      (Event.existingDoneEv m v ∈ evsAll ∨ Event.existingPartialEv m v ∈ evsAll)
      ∧ v.price = v.quantity * m.price
  | _ => True

/-- A one-bid book used to exercise a concrete fill (maker bid 1@10 resting,
element handle 0). -/
def c1Book : Engine :=
  ⟨"a", "d", [("1", 0)], ⟨[], 0⟩, ⟨[⟨10, 1, [⟨0, ⟨"1", "w1", false, 1, 10⟩⟩]⟩], 1⟩, 1⟩

/-- All elements resting on a side. -/
def Side.elems (s : Side) : List Elem := (s.levels.map Queue.orders).flatten

/-- Handle freshness: every resting element's handle is below the allocation
counter (true of every engine the public API can build, since handles are
allocated from the counter). -/
def eidsFresh (e : Engine) : Prop :=
  ∀ x ∈ e.asks.elems ++ e.bids.elems, x.eid < e.nextEid

instance (e : Engine) : Decidable (eidsFresh e) := by
  unfold eidsFresh; infer_instance

/-- The incoming order does not cross the best opposing level, so
`PlaceOrder` rests it without any fill ("uncrossed" order). -/
def restsClean (e : Engine) (o : Order) : Bool :=
  match e.bestOpp o.sell with
  | none => true
  | some bq => !(crosses o bq.price)

/-- The level prices of a side, ascending. -/
def priceList (s : Side) : List Value := s.levels.map (·.price)

/-- A side is well ordered: its levels are in strictly ascending price order
(the ordered contract of the red-black price index). -/
def sortedSide (s : Side) : Prop := List.Sorted (· < ·) (priceList s)

instance (s : Side) : Decidable (sortedSide s) := by
  unfold sortedSide; infer_instance

/-- The book is not crossed at rest: when both sides are non-empty the best
bid is strictly below the best ask. -/
def uncrossedB (e : Engine) : Bool :=
  match e.bids.maxPrice, e.asks.minPrice with
  | some bq, some aq => decide (bq.price < aq.price)
  | _, _ => true

/-- States reachable by the public mutating operations, `PushOrder`
included.  Steps through `PlaceOrder` exist only for terminating calls. -/
inductive ReachableP : Engine → Wallets → Prop where
  | init : ∀ (base quote : String) (w : Wallets), ReachableP (newEngine base quote) w
  | place : ∀ {e w} (fh : FeeHandler) (o : Order) (r : Option Err × Engine × Wallets × List Event),
      ReachableP e w → Engine.placeOrder fh e w o = some r → ReachableP r.2.1 r.2.2.1
  | replace : ∀ {e w} (o n : Order), ReachableP e w →
      ReachableP (Engine.replaceOrder e w o n).2.1 (Engine.replaceOrder e w o n).2.2.1
  | cancel : ∀ {e w} (o : Order), ReachableP e w →
      ReachableP (Engine.cancelOrder e w o).1 (Engine.cancelOrder e w o).2.1
  | push : ∀ {e w} (o : Order), ReachableP e w → ReachableP (Engine.pushOrder e o) w

/-- States reachable by the public mutating operations except `PushOrder`
(the unvalidated snapshot warm-up entry point). -/
inductive ReachableNP : Engine → Wallets → Prop where
  | init : ∀ (base quote : String) (w : Wallets), ReachableNP (newEngine base quote) w
  | place : ∀ {e w} (fh : FeeHandler) (o : Order) (r : Option Err × Engine × Wallets × List Event),
      ReachableNP e w → Engine.placeOrder fh e w o = some r → ReachableNP r.2.1 r.2.2.1
  | replace : ∀ {e w} (o n : Order), ReachableNP e w →
      ReachableNP (Engine.replaceOrder e w o n).2.1 (Engine.replaceOrder e w o n).2.2.1
  | cancel : ∀ {e w} (o : Order), ReachableNP e w →
      ReachableNP (Engine.cancelOrder e w o).1 (Engine.cancelOrder e w o).2.1

/-- A crossed book produced by two `PushOrder` calls: a bid pushed at 100 and
an ask pushed at 50. -/
def ce5Engine : Engine :=
  (newEngine "a" "d").pushOrder ⟨"b1", "w", false, 1, 100⟩ |>.pushOrder ⟨"a1", "w", true, 1, 50⟩

/-- The book-shape invariant maintained by the validated operations: both
sides strictly price-sorted, and the book uncrossed. -/
def bookInv (e : Engine) : Prop :=
  sortedSide e.asks ∧ sortedSide e.bids ∧ uncrossedB e = true

/-- The result of placing an uncrossed sell 1@10 on an empty book with owner
balance 10 (computed by evaluation); used to witness the place/cancel round
trip. -/
def c8Res : Option Err × Engine × Wallets × List Event :=
  (none, ⟨"a", "d", [("1", 0)], ⟨[⟨10, 1, [⟨0, ⟨"1", "w1", true, 1, 10⟩⟩]⟩], 1⟩, ⟨[], 0⟩, 1⟩,
   ⟨[(("w1", "a"), 9)], [(("w1", "a"), 1)]⟩,
   [.incomingPlacedEv ⟨"1", "w1", true, 1, 10⟩,
    .balanceChangedEv "w1" "a" 9,
    .inOrderChangedEv "w1" "a" 1])

/-- Sum of the order quantities of a list of elements. -/
def elemsQty (els : List Elem) : Value := (els.map (fun x => x.ord.quantity)).sum

/-- Shape invariant of one side's levels: every level has a non-empty FIFO,
its cached volume is the sum of its orders' quantities, and every resting
element is priced at its level with a positive quantity. -/
def Side.wfLevels (s : Side) : Prop :=
  (∀ l ∈ s.levels, l.orders ≠ []) ∧
  (∀ l ∈ s.levels, l.volume = elemsQty l.orders) ∧
  (∀ l ∈ s.levels, ∀ x ∈ l.orders, x.ord.price = l.price ∧ 0 < x.ord.quantity)

instance (s : Side) : Decidable s.wfLevels := by
  unfold Side.wfLevels; infer_instance

/-- Engine well-formedness: the structural invariants every real book
satisfies.  Both sides strictly price-ordered; both sides' levels well
shaped; ask elements flagged sell and bid elements flagged buy; element
handles pairwise distinct; lookup keys pairwise distinct; and the id-lookup
map in exact two-way correspondence with the resting elements. -/
def Engine.wf (e : Engine) : Prop :=
  sortedSide e.asks ∧ sortedSide e.bids ∧
  e.asks.wfLevels ∧ e.bids.wfLevels ∧
  (∀ x ∈ e.asks.elems, x.ord.sell = true) ∧
  (∀ x ∈ e.bids.elems, x.ord.sell = false) ∧
  ((e.asks.elems ++ e.bids.elems).map (fun x => x.eid)).Nodup ∧
  (e.orders.map (fun p => p.1)).Nodup ∧
  (∀ p ∈ e.orders, ∃ x ∈ e.asks.elems ++ e.bids.elems, x.eid = p.2 ∧ x.ord.id = p.1) ∧
  (∀ x ∈ e.asks.elems ++ e.bids.elems, assocGet e.orders x.ord.id = some x.eid)

instance (e : Engine) : Decidable e.wf := by
  unfold Engine.wf; infer_instance

/-- The match-order flattening of the opposing book: levels best price
first, each FIFO front first. -/
def oppFlat (e : Engine) (sell : Bool) : List Elem :=
  ((e.oppLevels sell).map Queue.orders).flatten

/-- The ids of the opposing resting orders in price-time match order. -/
def bestFlatIds (e : Engine) (sell : Bool) : List String :=
  (oppFlat e sell).map (fun x => x.ord.id)

/-- Total displayed volume of the opposing side. -/
def oppVolume (e : Engine) (sell : Bool) : Value := levelsVolume (e.oppLevels sell)

/-- The maker order ids of the fill notifications of a trace, in emission
order. -/
def existingIds (evs : List Event) : List String :=
  evs.filterMap (fun ev => match ev with
    | Event.existingDoneEv m _ => some m.id
    | Event.existingPartialEv m _ => some m.id
    | _ => none)

/-- Whether a trace contains an `OnIncomingOrderPlaced` notification. -/
def hasPlaced (evs : List Event) : Bool :=
  evs.any (fun ev => match ev with
    | Event.incomingPlacedEv _ => true
    | _ => false)

/-- One matched pair of fill notifications, maker's event first, sharing one
volume: done/done, done/partial (taker bigger), or partial/done (maker
bigger). -/
inductive FillPairEv : Event → Event → Order → Order → Volume → Prop where
  | dd : ∀ (m t : Order) (v : Volume),
      FillPairEv (Event.existingDoneEv m v) (Event.incomingDoneEv t v) m t v
  | dp : ∀ (m t : Order) (v : Volume),
      FillPairEv (Event.existingDoneEv m v) (Event.incomingPartialEv t v) m t v
  | pd : ∀ (m t : Order) (v : Volume),
      FillPairEv (Event.existingPartialEv m v) (Event.incomingDoneEv t v) m t v

/-- The fill part of a `PlaceOrder` trace: zero or more six-event fill
blocks; within each block the existing-order notification precedes the
incoming-order notification (both with the fill volume), then come the
maker's balance and in-order callbacks and only then the taker's two balance
callbacks. -/
inductive FillPhase : List Event → Prop where
  | nilEv : FillPhase []
  | blockEv : ∀ {rest : List Event} (em et : Event) (m t : Order) (v : Volume)
      (a1 a2 a3 a4 : String) (x1 x2 x3 x4 : Value),
      FillPairEv em et m t v →
      FillPhase rest →
      FillPhase (em :: et :: Event.balanceChangedEv m.owner a1 x1 ::
        Event.inOrderChangedEv m.owner a2 x2 :: Event.balanceChangedEv t.owner a3 x3 ::
        Event.balanceChangedEv t.owner a4 x4 :: rest)

/-- The whole `PlaceOrder` trace shape: all the fill blocks, then — only if
a residual rested — the placed notification followed by its balance and
in-order callbacks, and nothing after them. -/
inductive PlaceTrace : List Event → Prop where
  | fills : ∀ {evs : List Event}, FillPhase evs → PlaceTrace evs
  | rested : ∀ {evs : List Event} (o : Order) (a1 a2 : String) (x1 x2 : Value),
      FillPhase evs →
      PlaceTrace (evs ++ Event.incomingPlacedEv o :: Event.balanceChangedEv o.owner a1 x1 ::
        Event.inOrderChangedEv o.owner a2 x2 :: [])

/-- The result of selling 1@10 into `c1Book` (computed by evaluation). -/
def c1Res : Option Err × Engine × Wallets × List Event :=
  (none, ⟨"a", "d", [], ⟨[], 0⟩, ⟨[], 0⟩, 1⟩,
   ⟨[(("w2", "a"), 0), (("w1", "a"), 1), (("w2", "d"), 10)], [(("w1", "d"), -10)]⟩,
   [.existingDoneEv ⟨"1", "w1", false, 0, 10⟩ ⟨10, 1⟩,
    .incomingDoneEv ⟨"2", "w2", true, 0, 10⟩ ⟨10, 1⟩,
    .balanceChangedEv "w1" "a" 1,
    .inOrderChangedEv "w1" "d" (-10),
    .balanceChangedEv "w2" "d" 10,
    .balanceChangedEv "w2" "a" 0])

/-- The result of a market sell for 1 into `c1Book` (computed by
evaluation): full fill, nothing rests. -/
def c10Res : Option Err × Engine × Wallets × List Event :=
  (none, ⟨"a", "d", [], ⟨[], 0⟩, ⟨[], 0⟩, 1⟩,
   ⟨[(("w2", "a"), 4), (("w1", "a"), 1), (("w2", "d"), 10)], [(("w1", "d"), -10)]⟩,
   [.existingDoneEv ⟨"1", "w1", false, 0, 10⟩ ⟨10, 1⟩,
    .incomingDoneEv ⟨"2", "w2", true, 0, 0⟩ ⟨10, 1⟩,
    .balanceChangedEv "w1" "a" 1,
    .inOrderChangedEv "w1" "d" (-10),
    .balanceChangedEv "w2" "d" 10,
    .balanceChangedEv "w2" "a" 4])

end Fastme

namespace Fastme

/-! ### Basic lemmas about the helpers -/

theorem signNonposIff (a : Int) : a.sign ≤ 0 ↔ a ≤ 0 := by
  rcases lt_trichotomy a 0 with h | h | h
  · simp only [Int.sign_eq_neg_one_iff_neg.mpr h]; omega
  · simp [h]
  · simp only [Int.sign_eq_one_iff_pos.mpr h]; omega

theorem signNegIff (a : Int) : a.sign < 0 ↔ a < 0 := by
  rcases lt_trichotomy a 0 with h | h | h
  · simp only [Int.sign_eq_neg_one_iff_neg.mpr h]; omega
  · simp [h]
  · simp only [Int.sign_eq_one_iff_pos.mpr h]; omega

theorem assocGet_assocSet_self {α β : Type} [DecidableEq α] (l : List (α × β)) (k : α) (v : β) :
    assocGet (assocSet l k v) k = some v := by
  induction l with
  | nil => simp [assocSet, assocGet]
  | cons kv t ih =>
    by_cases h : kv.1 = k
    · simp [assocSet, h, assocGet]
    · simp only [assocSet, if_neg h]
      simpa [assocGet, List.find?_cons_of_neg, h] using ih

theorem assocGet_assocSet_ne {α β : Type} [DecidableEq α] (l : List (α × β)) (k k' : α) (v : β)
    (h : k' ≠ k) : assocGet (assocSet l k v) k' = assocGet l k' := by
  induction l with
  | nil => simp [assocSet, assocGet, List.find?, Ne.symm h]
  | cons kv t ih =>
    by_cases hk : kv.1 = k
    · subst hk
      simp [assocSet, assocGet, List.find?, Ne.symm h, h]
    · simp only [assocSet, if_neg hk]
      by_cases hk' : kv.1 = k'
      · simp [assocGet, List.find?, hk']
      · simpa [assocGet, List.find?_cons_of_neg, hk'] using ih

theorem assocGet_assocDel_none {α β : Type} [DecidableEq α] (l : List (α × β)) (k k' : α)
    (h : assocGet l k' = none) : assocGet (assocDel l k) k' = none := by
  induction l with
  | nil => simpa [assocDel] using h
  | cons kv t ih =>
    have hne : ¬ kv.1 = k' := by
      intro hkv
      simp [assocGet, List.find?, hkv] at h
    rw [assocGet, List.find?_cons_of_neg _ (by simpa using hne)] at h
    by_cases hk : kv.1 = k
    · rw [assocDel, if_pos hk]
      exact h
    · rw [assocDel, if_neg hk, assocGet, List.find?_cons_of_neg _ (by simpa using hne)]
      exact ih h

theorem getBalance_setBalance_self (w : Wallets) (wid asset : String) (v : Value) :
    (w.setBalance wid asset v).getBalance wid asset = v := by
  simp [Wallets.getBalance, Wallets.setBalance, assocGet_assocSet_self]

theorem getBalance_setBalance_ne (w : Wallets) (wid asset wid' asset' : String) (v : Value)
    (h : (wid', asset') ≠ (wid, asset)) :
    (w.setBalance wid asset v).getBalance wid' asset' = w.getBalance wid' asset' := by
  simp [Wallets.getBalance, Wallets.setBalance, assocGet_assocSet_ne _ _ _ _ h]

theorem getInOrder_setInOrder_self (w : Wallets) (wid asset : String) (v : Value) :
    (w.setInOrder wid asset v).getInOrder wid asset = v := by
  simp [Wallets.getInOrder, Wallets.setInOrder, assocGet_assocSet_self]

theorem getInOrder_setInOrder_ne (w : Wallets) (wid asset wid' asset' : String) (v : Value)
    (h : (wid', asset') ≠ (wid, asset)) :
    (w.setInOrder wid asset v).getInOrder wid' asset' = w.getInOrder wid' asset' := by
  simp [Wallets.getInOrder, Wallets.setInOrder, assocGet_assocSet_ne _ _ _ _ h]

theorem getBalance_setInOrder (w : Wallets) (wid asset wid' asset' : String) (v : Value) :
    (w.setInOrder wid asset v).getBalance wid' asset' = w.getBalance wid' asset' := rfl

theorem getInOrder_setBalance (w : Wallets) (wid asset wid' asset' : String) (v : Value) :
    (w.setBalance wid asset v).getInOrder wid' asset' = w.getInOrder wid' asset' := rfl

/-! ### Claim C3: the `CanPlace` error contract -/

/-- C3. `CanPlace` returns `InvalidQuantity` exactly when the quantity is
absent or has sign ≤ 0; otherwise `InvalidPrice` exactly when the price is
absent or has sign < 0; otherwise, for a sign-zero price it propagates the
failure of the market-price probe; otherwise it returns `InsufficientFunds`
exactly when the wallet's base balance is below the quantity (sell) resp. its
quote balance is below the market price (buy), and nil in every remaining
case.  Stated as: the source `canPlace` coincides with the cascade
`canPlaceSpec` transcribed from the specification text. -/
theorem claim_C3 (e : Engine) (w : Wallets) (wid : String) (sell : Bool)
    (q p : Option Value) :
    e.canPlace w wid sell q p = canPlaceSpec e w wid sell q p := by
  cases q with
  | none => rfl
  | some qv =>
    by_cases hq : qv ≤ 0
    · simp [Engine.canPlace, canPlaceSpec, hq, signNonposIff]
    · cases p with
      | none => simp [Engine.canPlace, canPlaceSpec, hq, signNonposIff]
      | some pv =>
        by_cases hp : pv < 0
        · simp [Engine.canPlace, canPlaceSpec, hq, signNonposIff, hp, signNegIff]
        · by_cases hp0 : pv = 0
          · subst hp0
            simp only [Engine.canPlace, canPlaceSpec, signNonposIff, signNegIff,
              if_neg hq, if_neg hp, Int.sign_zero, le_refl, lt_irrefl, if_true, if_false,
              reduceIte]
          · simp only [Engine.canPlace, canPlaceSpec, signNonposIff, signNegIff,
              Int.sign_eq_zero_iff_zero, if_neg hq, if_neg hp, if_neg hp0]

/-! ### Claim C6: `CancelOrder` with an unknown id -/

/-- C6. `CancelOrder` is infallible (its type has no error component), and on
an order whose id is not in the lookup the engine — book, counters, lookup —
is left fully unchanged, while the passed-in order's owner is nevertheless
credited the order's value on free balance, debited it on in-order, and the
`OnBalanceChanged`, `OnInOrderChanged`, `OnExistingOrderCanceled`
notifications are all still emitted. -/
theorem claim_C6 (e : Engine) (w : Wallets) (o : Order)
    (h : assocGet e.orders o.id = none) :
    (e.cancelOrder w o).1 = e
    ∧ (e.cancelOrder w o).2.1.getBalance o.owner (if o.sell then e.base else e.quote)
        = (if o.sell then o.quantity else o.quantity * o.price)
          + w.getBalance o.owner (if o.sell then e.base else e.quote)
    ∧ (e.cancelOrder w o).2.1.getInOrder o.owner (if o.sell then e.base else e.quote)
        = w.getInOrder o.owner (if o.sell then e.base else e.quote)
          - (if o.sell then o.quantity else o.quantity * o.price)
    ∧ (e.cancelOrder w o).2.2
        = [.balanceChangedEv o.owner (if o.sell then e.base else e.quote)
             ((if o.sell then o.quantity else o.quantity * o.price)
               + w.getBalance o.owner (if o.sell then e.base else e.quote)),
           .inOrderChangedEv o.owner (if o.sell then e.base else e.quote)
             (w.getInOrder o.owner (if o.sell then e.base else e.quote)
               - (if o.sell then o.quantity else o.quantity * o.price)),
           .existingCanceledEv o] := by
  have hp : e.pull o = e := by rw [Engine.pull, h]
  refine ⟨by simp [Engine.cancelOrder, hp], ?_, ?_, ?_⟩
  · simp [Engine.cancelOrder, Wallets.getBalance, Wallets.setBalance,
      Wallets.setInOrder, assocGet_assocSet_self]
  · simp [Engine.cancelOrder, getInOrder_setInOrder_self, getInOrder_setBalance]
  · simp [Engine.cancelOrder, hp, getInOrder_setBalance]

/-- Witness for C6 at a concrete unknown-id cancel. -/
theorem claim_C6_witness :
    (((newEngine "a" "d").cancelOrder ⟨[], []⟩ ⟨"z", "w", true, 3, 7⟩).1 = newEngine "a" "d")
    ∧ ((newEngine "a" "d").cancelOrder ⟨[], []⟩ ⟨"z", "w", true, 3, 7⟩).2.1.getBalance "w" "a"
        = 3 + (Wallets.mk [] []).getBalance "w" "a" := by
  have h := claim_C6 (newEngine "a" "d") ⟨[], []⟩ ⟨"z", "w", true, 3, 7⟩ (by decide)
  exact ⟨h.1, h.2.1⟩

/-! ### Claim C4: the market-price probe -/

theorem priceWalk_of_nonpos (acc q : Value) (ls : List Queue) (h : ¬ 0 < q) :
    priceWalk acc q ls = .ok acc := by
  cases ls <;> simp [priceWalk, h]

theorem fillSum_zero (ls : List Queue) (h : ∀ l ∈ ls, 0 ≤ l.volume) :
    fillSum 0 ls = 0 := by
  induction ls with
  | nil => rfl
  | cons l ls ih =>
    rw [fillSum]
    by_cases hv : l.volume ≤ 0
    · have hv0 : l.volume = 0 := le_antisymm hv (h l (by simp))
      rw [if_pos hv, hv0]
      have := ih (fun x hx => h x (by simp [hx]))
      simp [this]
    · rw [if_neg hv]
      ring

theorem priceWalk_spec (ls : List Queue) : ∀ acc q : Value, 0 < q →
    (∀ l ∈ ls, 0 ≤ l.volume) →
    ((priceWalk acc q ls = .error .insufficientQuantity ↔ levelsVolume ls < q)
     ∧ (q ≤ levelsVolume ls → priceWalk acc q ls = .ok (acc + fillSum q ls))) := by
  induction ls with
  | nil =>
    intro acc q hq _
    constructor
    · simp [priceWalk, hq, levelsVolume]
    · intro hle
      rw [levelsVolume] at hle
      simp only [List.map_nil, List.sum_nil] at hle
      linarith
  | cons l ls ih =>
    intro acc q hq hvol
    have hrest : 0 ≤ levelsVolume ls :=
      List.sum_nonneg (by
        intro x hx
        obtain ⟨lx, hlx, rfl⟩ := List.mem_map.mp hx
        exact hvol lx (by simp [hlx]))
    have hsum : levelsVolume (l :: ls) = l.volume + levelsVolume ls := by
      rw [levelsVolume, levelsVolume, List.map_cons, List.sum_cons]
    rw [priceWalk, if_pos hq]
    by_cases hlt : q < l.volume
    · rw [if_pos hlt]
      constructor
      · constructor
        · intro h; cases h
        · intro h; linarith
      · intro _
        rw [fillSum, if_neg (by linarith)]
        rw [Int.add_comm]
    · rw [if_neg hlt]
      have hvq : l.volume ≤ q := not_lt.mp hlt
      by_cases hq' : 0 < q - l.volume
      · have ih' := ih (l.price * l.volume + acc) (q - l.volume) hq'
          (fun x hx => hvol x (by simp [hx]))
        constructor
        · rw [ih'.1, hsum]
          constructor <;> intro <;> linarith
        · intro hle
          rw [ih'.2 (by rw [hsum] at hle; linarith)]
          rw [fillSum, if_pos hvq]
          congr 1
          ring
      · have hq0 : q - l.volume = 0 := by linarith
        rw [priceWalk_of_nonpos _ _ _ hq']
        constructor
        · constructor
          · intro h; cases h
          · intro h
            rw [hsum] at h
            linarith
        · intro _
          rw [fillSum, if_pos hvq, hq0,
            fillSum_zero ls (fun x hx => hvol x (by simp [hx]))]
          congr 1
          ring

/-- C4. For every probe quantity `q > 0` (against a book whose level volumes
are nonnegative, as they always are on real books), `Price(sell, q)` walks
the opposing side best price first and fails with `InsufficientQuantity`
exactly when the total opposing volume is smaller than `q`; otherwise it
returns the claimed sum: full `price · volume` for every consumed level and
`price · remainder` at the first level whose volume exceeds the remainder. -/
theorem claim_C4 (e : Engine) (sell : Bool) (q : Value) (hq : 0 < q)
    (hvol : ∀ l ∈ e.oppLevels sell, 0 ≤ l.volume) :
    (e.price sell q = .error .insufficientQuantity ↔ levelsVolume (e.oppLevels sell) < q)
    ∧ (q ≤ levelsVolume (e.oppLevels sell)
        → e.price sell q = .ok (fillSum q (e.oppLevels sell))) := by
  have h := priceWalk_spec (e.oppLevels sell) 0 q hq hvol
  refine ⟨h.1, fun hle => ?_⟩
  have := h.2 hle
  rw [Engine.price, this, Int.zero_add]

/-- Witness for C4: a two-level ask book probed by a buy for 3 units; the
probe takes 2@10 and 1@20 for a total of 40. -/
theorem claim_C4_witness :
    (Engine.price ⟨"a", "d", [("x", 0), ("y", 1)],
        ⟨[⟨10, 2, [⟨0, ⟨"x", "w", true, 2, 10⟩⟩]⟩, ⟨20, 1, [⟨1, ⟨"y", "w", true, 1, 20⟩⟩]⟩], 2⟩,
        ⟨[], 0⟩, 2⟩ false 3
      = .error .insufficientQuantity
     ↔ levelsVolume (Engine.oppLevels ⟨"a", "d", [("x", 0), ("y", 1)],
        ⟨[⟨10, 2, [⟨0, ⟨"x", "w", true, 2, 10⟩⟩]⟩, ⟨20, 1, [⟨1, ⟨"y", "w", true, 1, 20⟩⟩]⟩], 2⟩,
        ⟨[], 0⟩, 2⟩ false) < 3)
    ∧ (3 ≤ levelsVolume (Engine.oppLevels ⟨"a", "d", [("x", 0), ("y", 1)],
        ⟨[⟨10, 2, [⟨0, ⟨"x", "w", true, 2, 10⟩⟩]⟩, ⟨20, 1, [⟨1, ⟨"y", "w", true, 1, 20⟩⟩]⟩], 2⟩,
        ⟨[], 0⟩, 2⟩ false)
       → Engine.price ⟨"a", "d", [("x", 0), ("y", 1)],
        ⟨[⟨10, 2, [⟨0, ⟨"x", "w", true, 2, 10⟩⟩]⟩, ⟨20, 1, [⟨1, ⟨"y", "w", true, 1, 20⟩⟩]⟩], 2⟩,
        ⟨[], 0⟩, 2⟩ false 3
         = .ok (fillSum 3 (Engine.oppLevels ⟨"a", "d", [("x", 0), ("y", 1)],
        ⟨[⟨10, 2, [⟨0, ⟨"x", "w", true, 2, 10⟩⟩]⟩, ⟨20, 1, [⟨1, ⟨"y", "w", true, 1, 20⟩⟩]⟩], 2⟩,
        ⟨[], 0⟩, 2⟩ false))) :=
  claim_C4 ⟨"a", "d", [("x", 0), ("y", 1)],
      ⟨[⟨10, 2, [⟨0, ⟨"x", "w", true, 2, 10⟩⟩]⟩, ⟨20, 1, [⟨1, ⟨"y", "w", true, 1, 20⟩⟩]⟩], 2⟩,
      ⟨[], 0⟩, 2⟩ false 3 (by decide) (by decide)

/-! ### Claim C7: the `ReplaceOrder` validation cascade -/

theorem cmpValue_eq_zero_iff (a b : Value) : cmpValue a b = 0 ↔ a = b := by
  rw [cmpValue]
  split_ifs with h1 h2
  · constructor
    · intro h; exact absurd h (by norm_num)
    · intro h; subst h; exact absurd h1 (lt_irrefl _)
  · constructor
    · intro h; exact absurd h (by norm_num)
    · intro h; subst h; exact absurd h2 (lt_irrefl _)
  · constructor
    · intro _; exact le_antisymm (not_lt.mp h1) (not_lt.mp h2)
    · intro _; rfl

theorem replaceOrder_err_spec (e : Engine) (w : Wallets) (o n : Order) :
    (e.replaceOrder w o n).1 = replaceErrSpec e w o n := by
  rw [Engine.replaceOrder, replaceErrSpec]
  cases hg : assocGet e.orders o.id with
  | none => rfl
  | some eid =>
    dsimp only
    cases hf : e.findElem eid with
    | none => rfl
    | some el =>
      dsimp only
      by_cases h1 : el.ord.owner = n.owner
      case neg => simp [h1]
      by_cases h2 : el.ord.sell = n.sell
      case neg => simp [h1, h2]
      by_cases h3 : el.ord.price = n.price
      case neg => simp [h1, h2, h3, cmpValue_eq_zero_iff]
      simp only [h1, h2, h3, cmpValue_eq_zero_iff, ne_eq, not_true_eq_false, if_false,
        false_or, or_self, signNonposIff, reduceIte]
      by_cases h4 : n.quantity ≤ 0
      case pos => simp [h4]
      simp only [if_neg h4]
      cases hsell : n.sell
      · simp only [Bool.false_eq_true, if_false]
        by_cases h5 : n.price * el.ord.quantity - n.price * n.quantity
            + w.getBalance n.owner e.quote < 0
        · rw [if_pos h5, if_pos (by linarith)]
        · rw [if_neg h5, if_neg (by intro hcon; exact h5 (by linarith))]
          cases hl : e.bids.findLevel n.price <;> simp [hl]
      · simp only [if_true]
        by_cases h5 : el.ord.quantity - n.quantity + w.getBalance n.owner e.base < 0
        · rw [if_pos h5, if_pos (by linarith)]
        · rw [if_neg h5, if_neg (by intro hcon; exact h5 (by linarith))]
          cases hl : e.asks.findLevel n.price <;> simp [hl]

/-- C7. `ReplaceOrder` returns `OrderNotFound` when the old id is not
resting; `InvalidOrder` when the resting order's owner, side or price
(compared via `Cmp`) differs from the new order's; `InvalidQuantity` exactly
when the NEW order's quantity has sign ≤ 0 (the source checks `n.Quantity()`;
the old quantity is never examined); `InsufficientFunds` when the wallet's
balance plus the old reserved value minus the new value is negative; and
`InvalidPrice` when the target price is no longer a level of the side — in
that order of precedence.  Stated as: the source error result coincides with
the cascade `replaceErrSpec` transcribed from the claim. -/
theorem claim_C7 (e : Engine) (w : Wallets) (o n : Order) :
    (e.replaceOrder w o n).1 = replaceErrSpec e w o n :=
  replaceOrder_err_spec e w o n

/-! ### Claim C2: failed `PlaceOrder`/`ReplaceOrder` leave the state untouched -/

/-- C2. Whenever `PlaceOrder` or `ReplaceOrder` returns a non-nil error, the
engine state is unchanged — the result carries back exactly the caller's
book (both sides, lookup map and counters included) and all wallets — and no
listener events are emitted; moreover the returned error is precisely the
verdict of the pure validation run on that unchanged pre-state
(`ErrOrderExists` on a duplicate id or the `CanPlace` verdict for
`PlaceOrder`; the C7 validation cascade for `ReplaceOrder`), so every
validation completes before the first mutation of the book, the lookup map
or a wallet.  (The one write the source performs before validating is the
idempotent lazy initialization of the default listener and fee-handler
collaborators, which touches neither the book nor the lookup map nor any
wallet; the embedding passes those collaborators as call parameters.) -/
theorem claim_C2 (fh : FeeHandler) (e : Engine) (w : Wallets) (o old n : Order)
    (r : Option Err × Engine × Wallets × List Event) :
    (e.placeOrder fh w o = some r → r.1.isSome = true →
      r.2 = (e, w, [])
      ∧ ((assocGet e.orders o.id).isSome = true ∧ r.1 = some Err.orderExists
         ∨ r.1 = e.canPlace w o.owner o.sell (some o.quantity) (some o.price)))
    ∧ ((e.replaceOrder w old n).1.isSome = true →
      (e.replaceOrder w old n).2 = (e, w, [])
      ∧ (e.replaceOrder w old n).1 = replaceErrSpec e w old n) := by
  constructor
  · intro hres hs
    rw [Engine.placeOrder] at hres
    by_cases hex : (assocGet e.orders o.id).isSome
    · rw [if_pos hex] at hres
      cases hres
      exact ⟨rfl, Or.inl ⟨hex, rfl⟩⟩
    · rw [if_neg hex] at hres
      cases hcp : e.canPlace w o.owner o.sell (some o.quantity) (some o.price) with
      | some err =>
        rw [hcp] at hres
        try dsimp only at hres
        cases hres
        exact ⟨rfl, Or.inr rfl⟩
      | none =>
        rw [hcp] at hres
        try dsimp only at hres
        cases hm : Engine.matchLoop fh (e.asks.numOrders + e.bids.numOrders + 2) e w o []
          with
        | none => rw [hm] at hres; try dsimp only at hres; cases hres
        | some res =>
          obtain ⟨e1, w1, o1, evs⟩ := res
          rw [hm] at hres
          try dsimp only at hres
          by_cases hq : 0 < o1.quantity
          · rw [if_pos hq] at hres
            cases hres
            simp at hs
          · rw [if_neg hq] at hres
            cases hres
            simp at hs
  · intro hs
    refine ⟨?_, replaceOrder_err_spec e w old n⟩
    revert hs
    show ∀ _, _
    suffices h : ∀ res, e.replaceOrder w old n = res → res.1.isSome = true →
        res.2 = (e, w, []) by
      exact h _ rfl
    intro res hres hs
    rw [Engine.replaceOrder] at hres
    dsimp only at hres
    repeat' split at hres
    all_goals cases hres
    all_goals first | rfl | simp at hs

/-- Witness for C2: a `PlaceOrder` rejected by validation and an unknown-id
`ReplaceOrder` at concrete inputs — the state comes back unchanged, no event
is emitted, and the errors equal the pre-state validation verdicts. -/
theorem claim_C2_witness :
    ((newEngine "a" "d").placeOrder emptyFeeHandler ⟨[], []⟩ ⟨"x", "w", true, -1, 5⟩
        = some (some .invalidQuantity, newEngine "a" "d", ⟨[], []⟩, []))
    ∧ ((some Err.invalidQuantity, newEngine "a" "d", (⟨[], []⟩ : Wallets),
          ([] : List Event)).2 = (newEngine "a" "d", (⟨[], []⟩ : Wallets), [])
       ∧ ((assocGet (newEngine "a" "d").orders "x").isSome = true
            ∧ (some Err.invalidQuantity : Option Err) = some Err.orderExists
          ∨ (some Err.invalidQuantity : Option Err)
            = (newEngine "a" "d").canPlace ⟨[], []⟩ "w" true (some (-1)) (some 5)))
    ∧ (((newEngine "a" "d").replaceOrder ⟨[], []⟩ ⟨"x", "w", true, 1, 5⟩
          ⟨"y", "w", true, 1, 5⟩).2 = (newEngine "a" "d", (⟨[], []⟩ : Wallets), [])
       ∧ ((newEngine "a" "d").replaceOrder ⟨[], []⟩ ⟨"x", "w", true, 1, 5⟩
            ⟨"y", "w", true, 1, 5⟩).1
          = replaceErrSpec (newEngine "a" "d") ⟨[], []⟩ ⟨"x", "w", true, 1, 5⟩
              ⟨"y", "w", true, 1, 5⟩) := by
  refine ⟨by decide, ?_, ?_⟩
  · exact (claim_C2 emptyFeeHandler (newEngine "a" "d") ⟨[], []⟩ ⟨"x", "w", true, -1, 5⟩
      ⟨"x", "w", true, 1, 5⟩ ⟨"y", "w", true, 1, 5⟩
      (some .invalidQuantity, newEngine "a" "d", ⟨[], []⟩, [])).1 (by decide) (by decide)
  · exact (claim_C2 emptyFeeHandler (newEngine "a" "d") ⟨[], []⟩ ⟨"x", "w", true, -1, 5⟩
      ⟨"x", "w", true, 1, 5⟩ ⟨"y", "w", true, 1, 5⟩
      (some .invalidQuantity, newEngine "a" "d", ⟨[], []⟩, [])).2 (by decide)

/-! ### Claim C1: fill volumes are priced by the maker -/

theorem exchanged_events_settlement (e : Engine) (fh : FeeHandler) (w : Wallets)
    (o : Order) (v : Volume) (im : Bool) :
    ∀ ev ∈ (e.updateBalanceOnExchanged fh w o v im).2, isSettlementEv ev := by
  intro ev hev
  rw [Engine.updateBalanceOnExchanged] at hev
  dsimp only at hev
  split at hev <;>
    (simp only [List.mem_cons, List.not_mem_nil, or_false] at hev;
     rcases hev with rfl | rfl <;> trivial)

theorem placed_events_settlement (e : Engine) (w : Wallets) (o : Order) :
    ∀ ev ∈ (e.updateBalanceOnPlaced w o).2, isSettlementEv ev := by
  intro ev hev
  rw [Engine.updateBalanceOnPlaced] at hev
  dsimp only at hev
  simp only [List.mem_cons, List.not_mem_nil, or_false] at hev
  rcases hev with rfl | rfl <;> trivial

theorem matchLoop_evs_mono (fh : FeeHandler) :
    ∀ (fuel : Nat) (e : Engine) (w : Wallets) (taker : Order) (evs : List Event)
      (r : Engine × Wallets × Order × List Event),
      Engine.matchLoop fh fuel e w taker evs = some r →
      ∀ ev ∈ evs, ev ∈ r.2.2.2 := by
  intro fuel
  induction fuel with
  | zero =>
    intro e w taker evs r h ev hev
    simp only [Engine.matchLoop] at h
    split at h
    · cases h; exact hev
    · split at h
      · cases h
      · cases h; exact hev
  | succ fuel ih =>
    intro e w taker evs r h ev hev
    simp only [Engine.matchLoop] at h
    split at h
    · cases h; exact hev
    · split at h
      · split at h
        · cases h
        · try dsimp only at h
          split at h
          · exact ih _ _ _ _ _ h ev (by simp [hev])
          · split at h
            · exact ih _ _ _ _ _ h ev (by simp [hev])
            · exact ih _ _ _ _ _ h ev (by simp [hev])
      · cases h; exact hev

theorem isFillGood_of_settlement (evsAll : List Event) (ev : Event)
    (h : isSettlementEv ev) : isFillGood evsAll ev := by
  cases ev <;> trivial

theorem matchLoop_fill_good (fh : FeeHandler) :
    ∀ (fuel : Nat) (e : Engine) (w : Wallets) (taker : Order) (evs : List Event)
      (r : Engine × Wallets × Order × List Event),
      Engine.matchLoop fh fuel e w taker evs = some r →
      ∀ ev ∈ r.2.2.2, ev ∈ evs ∨ isFillGood r.2.2.2 ev := by
  intro fuel
  induction fuel with
  | zero =>
    intro e w taker evs r h ev hev
    simp only [Engine.matchLoop] at h
    split at h
    · cases h; exact Or.inl hev
    · split at h
      · cases h
      · cases h; exact Or.inl hev
  | succ fuel ih =>
    intro e w taker evs r h ev hev
    simp only [Engine.matchLoop] at h
    split at h
    · cases h; exact Or.inl hev
    · split at h
      · split at h
        · cases h
        · try dsimp only at h
          split at h
          · rcases ih _ _ _ _ _ h ev hev with hin | hgood
            · rcases List.mem_append.mp hin with hin | hin2
              · rcases List.mem_append.mp hin with hin | hin1
                · rcases List.mem_append.mp hin with hin | hinab
                  · exact Or.inl hin
                  · simp only [List.mem_cons, List.not_mem_nil, or_false] at hinab
                    rcases hinab with rfl | rfl
                    · exact Or.inr rfl
                    · exact Or.inr ⟨_, Or.inl (matchLoop_evs_mono fh fuel _ _ _ _ _ h _
                        (List.mem_append_left _ (List.mem_append_left _
                          (List.mem_append_right _ (List.mem_cons_self _ _))))), rfl⟩
                · exact Or.inr (isFillGood_of_settlement _ _
                    (exchanged_events_settlement _ _ _ _ _ _ _ hin1))
              · exact Or.inr (isFillGood_of_settlement _ _
                  (exchanged_events_settlement _ _ _ _ _ _ _ hin2))
            · exact Or.inr hgood
          · split at h
            · rcases ih _ _ _ _ _ h ev hev with hin | hgood
              · rcases List.mem_append.mp hin with hin | hin2
                · rcases List.mem_append.mp hin with hin | hin1
                  · rcases List.mem_append.mp hin with hin | hinab
                    · exact Or.inl hin
                    · simp only [List.mem_cons, List.not_mem_nil, or_false] at hinab
                      rcases hinab with rfl | rfl
                      · exact Or.inr rfl
                      · exact Or.inr ⟨_, Or.inl (matchLoop_evs_mono fh fuel _ _ _ _ _ h _
                          (List.mem_append_left _ (List.mem_append_left _
                            (List.mem_append_right _ (List.mem_cons_self _ _))))), rfl⟩
                  · exact Or.inr (isFillGood_of_settlement _ _
                      (exchanged_events_settlement _ _ _ _ _ _ _ hin1))
                · exact Or.inr (isFillGood_of_settlement _ _
                    (exchanged_events_settlement _ _ _ _ _ _ _ hin2))
              · exact Or.inr hgood
            · rcases ih _ _ _ _ _ h ev hev with hin | hgood
              · rcases List.mem_append.mp hin with hin | hin2
                · rcases List.mem_append.mp hin with hin | hin1
                  · rcases List.mem_append.mp hin with hin | hinab
                    · exact Or.inl hin
                    · simp only [List.mem_cons, List.not_mem_nil, or_false] at hinab
                      rcases hinab with rfl | rfl
                      · exact Or.inr rfl
                      · exact Or.inr ⟨_, Or.inr (matchLoop_evs_mono fh fuel _ _ _ _ _ h _
                          (List.mem_append_left _ (List.mem_append_left _
                            (List.mem_append_right _ (List.mem_cons_self _ _))))), rfl⟩
                  · exact Or.inr (isFillGood_of_settlement _ _
                      (exchanged_events_settlement _ _ _ _ _ _ _ hin1))
                · exact Or.inr (isFillGood_of_settlement _ _
                    (exchanged_events_settlement _ _ _ _ _ _ _ hin2))
              · exact Or.inr hgood
      · cases h; exact Or.inl hev

/-- C1. For every fill produced during `PlaceOrder`, the emitted `Volume` has
`Price` equal to the filled quantity times the resting (maker) order's price
and `Quantity` equal to the filled quantity; the incoming taker's limit price
never determines the fill price: each taker fill event shares its volume with
a maker fill event whose order prices it.  The proof covers all three cases
of the match switch (taker equal, greater, lesser than the maker). -/
theorem claim_C1 (fh : FeeHandler) (e : Engine) (w : Wallets) (o : Order)
    (r : Option Err × Engine × Wallets × List Event)
    (h : e.placeOrder fh w o = some r) :
    (∀ m v, (Event.existingDoneEv m v ∈ r.2.2.2 ∨ Event.existingPartialEv m v ∈ r.2.2.2) →
        v.price = v.quantity * m.price)
    ∧ (∀ t v, (Event.incomingDoneEv t v ∈ r.2.2.2 ∨ Event.incomingPartialEv t v ∈ r.2.2.2) →
        ∃ m, (Event.existingDoneEv m v ∈ r.2.2.2 ∨ Event.existingPartialEv m v ∈ r.2.2.2)
          ∧ v.price = v.quantity * m.price) := by
  rw [Engine.placeOrder] at h
  split at h
  · cases h
    exact ⟨fun m v hm => by rcases hm with h' | h' <;> simp at h',
           fun t v hm => by rcases hm with h' | h' <;> simp at h'⟩
  · split at h
    · cases h
      exact ⟨fun m v hm => by rcases hm with h' | h' <;> simp at h',
             fun t v hm => by rcases hm with h' | h' <;> simp at h'⟩
    · split at h
      · cases h
      · rename_i e1 w1 o1 evs1 heq
        have G := matchLoop_fill_good fh _ _ _ _ _ _ heq
        split at h
        · cases h
          constructor
          · intro m v hm
            rcases hm with hm | hm <;>
              (rcases List.mem_append.mp hm with hin | hin
               · rcases G _ hin with hfalse | hg
                 · simp at hfalse
                 · exact hg
               · rcases List.mem_cons.mp hin with heq' | hin2
                 · cases heq'
                 · exact (placed_events_settlement _ _ _ _ hin2).elim)
          · intro t v hm
            rcases hm with hm | hm <;>
              (rcases List.mem_append.mp hm with hin | hin
               · rcases G _ hin with hfalse | hg
                 · simp at hfalse
                 · obtain ⟨m, hmem, heqp⟩ := hg
                   refine ⟨m, ?_, heqp⟩
                   rcases hmem with hl | hl
                   · exact Or.inl (List.mem_append_left _ hl)
                   · exact Or.inr (List.mem_append_left _ hl)
               · rcases List.mem_cons.mp hin with heq' | hin2
                 · cases heq'
                 · exact (placed_events_settlement _ _ _ _ hin2).elim)
        · cases h
          constructor
          · intro m v hm
            rcases hm with hm | hm <;>
              (rcases G _ hm with hfalse | hg
               · simp at hfalse
               · exact hg)
          · intro t v hm
            rcases hm with hm | hm <;>
              (rcases G _ hm with hfalse | hg
               · simp at hfalse
               · exact hg)

/-- Witness for C1: selling 1@10 into a book with a resting bid 1@10 fills at
the maker's price 10: the emitted volume is (10, 1) and it is priced by the
maker's price. -/
theorem claim_C1_witness :
    ((10 : Value) = 1 * (10 : Value))
    ∧ ∃ m : Order,
        (Event.existingDoneEv m ⟨10, 1⟩ ∈ c1Res.2.2.2
          ∨ Event.existingPartialEv m ⟨10, 1⟩ ∈ c1Res.2.2.2)
        ∧ (10 : Value) = 1 * m.price :=
  ⟨(claim_C1 emptyFeeHandler c1Book ⟨[(("w2", "a"), 1)], []⟩ ⟨"2", "w2", true, 1, 10⟩
      c1Res (by decide)).1 ⟨"1", "w1", false, 0, 10⟩ ⟨10, 1⟩ (Or.inl (by decide)),
   (claim_C1 emptyFeeHandler c1Book ⟨[(("w2", "a"), 1)], []⟩ ⟨"2", "w2", true, 1, 10⟩
      c1Res (by decide)).2 ⟨"2", "w2", true, 0, 10⟩ ⟨10, 1⟩ (Or.inl (by decide))⟩

/-! ### Claim C8: place + cancel of an uncrossed order is a wallet round trip -/

theorem matchLoop_noCross (fh : FeeHandler) (fuel : Nat) (e : Engine) (w : Wallets)
    (taker : Order) (evs : List Event) (h : restsClean e taker = true) :
    Engine.matchLoop fh fuel e w taker evs = some (e, w, taker, evs) := by
  rw [restsClean] at h
  cases fuel with
  | zero =>
    simp only [Engine.matchLoop]
    cases hb : e.bestOpp taker.sell with
    | none => rfl
    | some bq =>
      rw [hb] at h
      simp only [Bool.not_eq_true'] at h
      simp [h]
  | succ fuel =>
    simp only [Engine.matchLoop]
    cases hb : e.bestOpp taker.sell with
    | none => rfl
    | some bq =>
      rw [hb] at h
      simp only [Bool.not_eq_true'] at h
      simp [h]

theorem canPlace_pos (e : Engine) (w : Wallets) (wid : String) (sell : Bool)
    (q : Value) (p : Option Value) (h : e.canPlace w wid sell (some q) p = none) :
    0 < q := by
  by_contra hq
  rw [Engine.canPlace.eq_def] at h
  dsimp only at h
  rw [if_pos (not_lt.mp hq)] at h
  cases h

theorem find?_eid_append_self (orders : List Elem) (el : Elem)
    (h : ∀ x ∈ orders, x.eid ≠ el.eid) :
    (orders ++ [el]).find? (fun x => decide (x.eid = el.eid)) = some el := by
  induction orders with
  | nil => simp [List.find?]
  | cons a t ih =>
    rw [List.cons_append, List.find?_cons_of_neg _ (by simpa using h a (by simp))]
    exact ih (fun x hx => h x (by simp [hx]))

theorem findEid_eq_none (s : Side) (eid : Nat) (h : ∀ x ∈ s.elems, x.eid ≠ eid) :
    s.findEid eid = none := by
  rw [Side.findEid]
  rw [List.findSome?_eq_none_iff]
  intro l hl
  rw [List.find?_eq_none]
  intro x hx
  simp only [decide_eq_true_eq]
  refine h x ?_
  rw [Side.elems, List.mem_flatten]
  exact ⟨l.orders, List.mem_map.mpr ⟨l, hl, rfl⟩, hx⟩

theorem findEid_mapAppend (p : Value) (el : Elem) (levels : List Queue)
    (h : ∀ l ∈ levels, ∀ x ∈ l.orders, x.eid ≠ el.eid)
    (hex : (levels.find? (fun l => decide (l.price = p))).isSome = true) :
    (levels.map (fun l => if l.price = p then l.appendElem el else l)).findSome?
      (fun l => l.orders.find? (fun x => decide (x.eid = el.eid))) = some el := by
  induction levels with
  | nil => simp at hex
  | cons l ls ih =>
    by_cases hp : l.price = p
    · rw [List.map_cons, if_pos hp, List.findSome?_cons]
      rw [Queue.appendElem]
      dsimp only
      rw [find?_eid_append_self l.orders el (fun x hx => h l (by simp) x hx)]
    · rw [List.map_cons, if_neg hp, List.findSome?_cons]
      rw [List.find?_eq_none.mpr (fun x hx => by
        simpa using h l (by simp) x hx)]
      rw [List.find?_cons_of_neg _ (by simpa using hp)] at hex
      exact ih (fun l' hl' x hx => h l' (by simp [hl']) x hx) hex

theorem findEid_insertLevel (q : Queue) (levels : List Queue) (el : Elem)
    (h : ∀ l ∈ levels, ∀ x ∈ l.orders, x.eid ≠ el.eid)
    (hq : q.orders.find? (fun x => decide (x.eid = el.eid)) = some el) :
    (insertLevel q levels).findSome?
      (fun l => l.orders.find? (fun x => decide (x.eid = el.eid))) = some el := by
  induction levels with
  | nil => rw [insertLevel, List.findSome?_cons, hq]
  | cons l ls ih =>
    rw [insertLevel]
    by_cases hl : q.price < l.price
    · rw [if_pos hl, List.findSome?_cons, hq]
    · rw [if_neg hl, List.findSome?_cons]
      rw [List.find?_eq_none.mpr (fun x hx => by
        simpa using h l (by simp) x hx)]
      exact ih (fun l' hl' x hx => h l' (by simp [hl']) x hx)

theorem findEid_appendElem (s : Side) (el : Elem)
    (h : ∀ x ∈ s.elems, x.eid ≠ el.eid) :
    (s.appendElem el).findEid el.eid = some el := by
  have hmem : ∀ l ∈ s.levels, ∀ x ∈ l.orders, x.eid ≠ el.eid := by
    intro l hl x hx
    refine h x ?_
    rw [Side.elems, List.mem_flatten]
    exact ⟨l.orders, List.mem_map.mpr ⟨l, hl, rfl⟩, hx⟩
  rw [Side.appendElem]
  split
  case isTrue hex =>
    rw [Side.findEid]
    exact findEid_mapAppend el.ord.price el s.levels hmem hex
  case isFalse hex =>
    rw [Side.findEid]
    refine findEid_insertLevel _ s.levels el hmem ?_
    rw [Queue.appendElem]
    simp [List.find?]

theorem findElem_push (e : Engine) (o : Order) (hfresh : eidsFresh e) :
    (e.push o).findElem e.nextEid = some ⟨e.nextEid, o⟩ := by
  have hA : ∀ x ∈ e.asks.elems, x.eid ≠ e.nextEid := by
    intro x hx
    exact Nat.ne_of_lt (hfresh x (List.mem_append_left _ hx))
  have hB : ∀ x ∈ e.bids.elems, x.eid ≠ e.nextEid := by
    intro x hx
    exact Nat.ne_of_lt (hfresh x (List.mem_append_right _ hx))
  by_cases hs : o.sell = true
  · rw [Engine.push]
    try dsimp only
    rw [if_pos hs, Engine.findElem]
    try dsimp only
    rw [findEid_appendElem e.asks ⟨e.nextEid, o⟩ hA]
    rfl
  · rw [Engine.push]
    try dsimp only
    rw [if_neg hs, Engine.findElem]
    try dsimp only
    rw [findEid_eq_none e.asks e.nextEid hA,
      findEid_appendElem e.bids ⟨e.nextEid, o⟩ hB]
    rfl

theorem push_orders (e : Engine) (o : Order) :
    (e.push o).orders = assocSet e.orders o.id e.nextEid := by
  rw [Engine.push]; split <;> rfl

theorem appendElem_numOrders (s : Side) (el : Elem) :
    (s.appendElem el).numOrders = s.numOrders + 1 := by
  rw [Side.appendElem]; split <;> rfl

theorem place_cancel_balance (E : Engine) (w : Wallets) (o : Order) (wid a : String) :
    (E.cancelOrder (E.updateBalanceOnPlaced w o).1 o).2.1.getBalance wid a
      = w.getBalance wid a := by
  rw [Engine.cancelOrder, Engine.updateBalanceOnPlaced]
  dsimp only
  have hv2 : (if o.sell = true then o.quantity else o.quantity * o.price)
      = (if o.sell = true then o.quantity else o.price * o.quantity) := by
    split
    · rfl
    · ring
  rw [hv2]
  by_cases hkey : (wid, a) = (o.owner, if o.sell = true then E.base else E.quote)
  · rw [Prod.mk.injEq] at hkey
    obtain ⟨rfl, rfl⟩ := hkey
    simp only [getBalance_setInOrder, getBalance_setBalance_self]
    ring
  · simp only [getBalance_setInOrder]
    rw [getBalance_setBalance_ne _ _ _ _ _ _ hkey,
      getBalance_setInOrder,
      getBalance_setBalance_ne _ _ _ _ _ _ hkey]

theorem place_cancel_inOrder (E : Engine) (w : Wallets) (o : Order) (wid a : String) :
    (E.cancelOrder (E.updateBalanceOnPlaced w o).1 o).2.1.getInOrder wid a
      = w.getInOrder wid a := by
  rw [Engine.cancelOrder, Engine.updateBalanceOnPlaced]
  dsimp only
  have hv2 : (if o.sell = true then o.quantity else o.quantity * o.price)
      = (if o.sell = true then o.quantity else o.price * o.quantity) := by
    split
    · rfl
    · ring
  rw [hv2]
  by_cases hkey : (wid, a) = (o.owner, if o.sell = true then E.base else E.quote)
  · rw [Prod.mk.injEq] at hkey
    obtain ⟨rfl, rfl⟩ := hkey
    simp only [getInOrder_setBalance, getInOrder_setInOrder_self]
    ring
  · simp only [getInOrder_setBalance, getInOrder_setInOrder_ne _ _ _ _ _ _ hkey]

theorem pull_push_numOrders (e : Engine) (o : Order) (hfresh : eidsFresh e) :
    (if o.sell = true then ((e.push o).pull o).asks.numOrders
     else ((e.push o).pull o).bids.numOrders)
    = (if o.sell = true then e.asks.numOrders else e.bids.numOrders) := by
  rw [Engine.pull, push_orders, assocGet_assocSet_self]
  dsimp only
  rw [findElem_push e o hfresh]
  dsimp only
  by_cases hs : o.sell = true
  · rw [if_pos hs, if_pos hs, if_pos hs]
    dsimp only
    rw [Side.removeElem]
    try dsimp only
    rw [show (e.push o).asks = e.asks.appendElem ⟨e.nextEid, o⟩ by
      rw [Engine.push]; try dsimp only
      rw [if_pos hs]]
    rw [appendElem_numOrders]
    omega
  · rw [if_neg hs, if_neg (show ¬ (⟨e.nextEid, o⟩ : Elem).ord.sell = true from hs),
      if_neg hs]
    dsimp only
    rw [Side.removeElem]
    try dsimp only
    rw [show (e.push o).bids = e.bids.appendElem ⟨e.nextEid, o⟩ by
      rw [Engine.push]; try dsimp only
      rw [if_neg hs]]
    rw [appendElem_numOrders]
    omega

/-- C8. For an uncrossed limit order (one that rests without matching),
`PlaceOrder` followed by `CancelOrder` of that order restores every wallet
balance and in-order amount, and restores the order's side `numOrders`
counter: the place/cancel pair is a round trip. -/
theorem claim_C8 (fh : FeeHandler) (e : Engine) (w : Wallets) (o : Order)
    (r : Option Err × Engine × Wallets × List Event)
    (hfresh : eidsFresh e) (hnc : restsClean e o = true)
    (h : e.placeOrder fh w o = some r) (hok : r.1 = none) :
    (∀ wid a, (r.2.1.cancelOrder r.2.2.1 o).2.1.getBalance wid a = w.getBalance wid a)
    ∧ (∀ wid a, (r.2.1.cancelOrder r.2.2.1 o).2.1.getInOrder wid a = w.getInOrder wid a)
    ∧ ((if o.sell = true then (r.2.1.cancelOrder r.2.2.1 o).1.asks.numOrders
          else (r.2.1.cancelOrder r.2.2.1 o).1.bids.numOrders)
        = (if o.sell = true then e.asks.numOrders else e.bids.numOrders)) := by
  rw [Engine.placeOrder] at h
  split at h
  · cases h; simp at hok
  · split at h
    case h_1 err heq => cases h; simp at hok
    case h_2 heq =>
      have hq : 0 < o.quantity := canPlace_pos _ _ _ _ _ _ heq
      rw [matchLoop_noCross fh _ e w o [] hnc] at h
      dsimp only at h
      rw [if_pos hq] at h
      cases h
      refine ⟨fun wid a => place_cancel_balance _ _ _ _ _,
              fun wid a => place_cancel_inOrder _ _ _ _ _, ?_⟩
      have hn := pull_push_numOrders e o hfresh
      have hcanc : ((e.push o).cancelOrder ((e.push o).updateBalanceOnPlaced w o).1 o).1
          = (e.push o).pull o := rfl
      rw [hcanc]
      exact hn

/-- Witness for C8: place sell 1@10 on an empty book with balance 10, then
cancel; the balance (10), in-order (0) and `numOrders` (0) are restored. -/
theorem claim_C8_witness :
    ((c8Res.2.1.cancelOrder c8Res.2.2.1 ⟨"1", "w1", true, 1, 10⟩).2.1.getBalance "w1" "a"
      = (Wallets.mk [(("w1", "a"), 10)] []).getBalance "w1" "a")
    ∧ ((c8Res.2.1.cancelOrder c8Res.2.2.1 ⟨"1", "w1", true, 1, 10⟩).2.1.getInOrder "w1" "a"
      = (Wallets.mk [(("w1", "a"), 10)] []).getInOrder "w1" "a")
    ∧ ((if (Order.mk "1" "w1" true 1 10).sell = true
          then (c8Res.2.1.cancelOrder c8Res.2.2.1 ⟨"1", "w1", true, 1, 10⟩).1.asks.numOrders
          else (c8Res.2.1.cancelOrder c8Res.2.2.1 ⟨"1", "w1", true, 1, 10⟩).1.bids.numOrders)
        = (if (Order.mk "1" "w1" true 1 10).sell = true
            then (newEngine "a" "d").asks.numOrders
            else (newEngine "a" "d").bids.numOrders)) := by
  have h := claim_C8 emptyFeeHandler (newEngine "a" "d") ⟨[(("w1", "a"), 10)], []⟩
    ⟨"1", "w1", true, 1, 10⟩ c8Res (by decide) (by decide) (by decide) (by decide)
  exact ⟨h.1 "w1" "a", h.2.1 "w1" "a", h.2.2⟩


/-! ### Claim C5: the book is never crossed at rest -/

theorem updateQty_price (q : Queue) (eid : Nat) (qty : Value) :
    (q.updateQty eid qty).price = q.price := by
  rw [Queue.updateQty]; split <;> rfl

theorem removeElem_priceList (s : Side) (el : Elem) :
    List.Sublist (priceList (s.removeElem el)) (priceList s) := by
  rw [Side.removeElem, priceList, priceList]
  dsimp only
  have h1 : (s.levels.map (fun l => if l.price = el.ord.price then l.removeElem el else l)).map
      (fun l => l.price) = s.levels.map (fun l => l.price) := by
    rw [List.map_map]
    refine List.map_congr_left ?_
    intro l _
    by_cases hp : l.price = el.ord.price <;> simp [Function.comp, hp, Queue.removeElem]
  rw [← h1]
  exact (List.filter_sublist _).map _

theorem updateLevelQty_priceList (s : Side) (p : Value) (eid : Nat) (qty : Value) :
    priceList (s.updateLevelQty p eid qty) = priceList s := by
  rw [Side.updateLevelQty, priceList, priceList]
  dsimp only
  rw [List.map_map]
  refine List.map_congr_left ?_
  intro l _
  by_cases hp : l.price = p <;> simp [Function.comp, hp, updateQty_price]

theorem pull_priceList (e : Engine) (o : Order) :
    List.Sublist (priceList (e.pull o).asks) (priceList e.asks)
    ∧ List.Sublist (priceList (e.pull o).bids) (priceList e.bids) := by
  rw [Engine.pull]
  split
  · exact ⟨List.Sublist.refl _, List.Sublist.refl _⟩
  · split
    · exact ⟨List.Sublist.refl _, List.Sublist.refl _⟩
    · split
      · exact ⟨removeElem_priceList _ _, List.Sublist.refl _⟩
      · exact ⟨List.Sublist.refl _, removeElem_priceList _ _⟩

theorem sorted_le_getLast : ∀ (L : List Value), List.Sorted (· < ·) L →
    ∀ b, L.getLast? = some b → ∀ x ∈ L, x ≤ b := by
  intro L
  induction L with
  | nil => intro _ b hb; cases hb
  | cons a t ih =>
    intro hs b hb x hx
    cases t with
    | nil =>
      simp only [List.getLast?_singleton, Option.some.injEq] at hb
      simp only [List.mem_singleton] at hx
      rw [hx, hb]
    | cons c t' =>
      rw [List.getLast?_cons_cons] at hb
      rcases List.mem_cons.mp hx with rfl | hx'
      · have hbmem : b ∈ c :: t' := List.mem_of_mem_getLast? hb
        exact le_of_lt ((List.sorted_cons.mp hs).1 b hbmem)
      · exact ih (List.sorted_cons.mp hs).2 b hb x hx'

theorem sorted_head_le : ∀ (L : List Value), List.Sorted (· < ·) L →
    ∀ b, L.head? = some b → ∀ x ∈ L, b ≤ x := by
  intro L hs b hb x hx
  cases L with
  | nil => cases hb
  | cons a t =>
    cases hb
    rcases List.mem_cons.mp hx with rfl | hx'
    · exact le_refl _
    · exact le_of_lt ((List.sorted_cons.mp hs).1 x hx')

theorem maxPrice_ge (s : Side) (hs : sortedSide s) {bq : Queue}
    (h : s.maxPrice = some bq) : ∀ l ∈ s.levels, l.price ≤ bq.price := by
  intro l hl
  refine sorted_le_getLast (priceList s) hs bq.price ?_ l.price
    (List.mem_map.mpr ⟨l, hl, rfl⟩)
  rw [priceList, List.getLast?_map, Side.maxPrice] at *
  rw [h]
  rfl

theorem minPrice_le (s : Side) (hs : sortedSide s) {aq : Queue}
    (h : s.minPrice = some aq) : ∀ l ∈ s.levels, aq.price ≤ l.price := by
  intro l hl
  refine sorted_head_le (priceList s) hs aq.price ?_ l.price
    (List.mem_map.mpr ⟨l, hl, rfl⟩)
  rw [priceList, List.head?_map, Side.minPrice] at *
  rw [h]
  rfl

theorem insertLevel_priceList_mem (q : Queue) : ∀ (ls : List Queue),
    ∀ p ∈ (insertLevel q ls).map (fun l => l.price),
      p = q.price ∨ p ∈ ls.map (fun l => l.price) := by
  intro ls
  induction ls with
  | nil => intro p hp; simp only [insertLevel, List.map_cons, List.map_nil] at hp; simp at hp; exact Or.inl hp
  | cons l t ih =>
    intro p hp
    rw [insertLevel] at hp
    by_cases hl : q.price < l.price
    · rw [if_pos hl] at hp
      rw [List.map_cons, List.mem_cons] at hp
      rcases hp with rfl | hp
      · exact Or.inl rfl
      · exact Or.inr hp
    · rw [if_neg hl] at hp
      rw [List.map_cons, List.mem_cons] at hp
      rcases hp with rfl | hp
      · exact Or.inr (by rw [List.map_cons]; exact List.mem_cons_self _ _)
      · rcases ih p hp with h | h
        · exact Or.inl h
        · exact Or.inr (by rw [List.map_cons]; exact List.mem_cons_of_mem _ h)

theorem sorted_insertLevel (q : Queue) : ∀ (ls : List Queue),
    List.Sorted (· < ·) (ls.map (fun l => l.price)) →
    (∀ l ∈ ls, ¬ l.price = q.price) →
    List.Sorted (· < ·) ((insertLevel q ls).map (fun l => l.price)) := by
  intro ls
  induction ls with
  | nil => intro _ _; simp [insertLevel]
  | cons l t ih =>
    intro hs hne
    rw [insertLevel]
    by_cases hl : q.price < l.price
    · rw [if_pos hl]
      simp only [List.map_cons, List.sorted_cons] at hs ⊢
      refine ⟨?_, hs⟩
      intro b hb
      simp only [List.mem_cons] at hb
      rcases hb with rfl | hb
      · exact hl
      · exact lt_trans hl (hs.1 b hb)
    · rw [if_neg hl]
      have hlq : l.price < q.price :=
        lt_of_le_of_ne (not_lt.mp hl) (hne l (by simp))
      simp only [List.map_cons, List.sorted_cons] at hs ⊢
      refine ⟨?_, ih hs.2 (fun x hx => hne x (by simp [hx]))⟩
      intro b hb
      rcases insertLevel_priceList_mem q t b hb with rfl | hb'
      · exact hlq
      · exact hs.1 b hb'

theorem sortedSide_appendElem (s : Side) (el : Elem) (hs : sortedSide s) :
    sortedSide (s.appendElem el) := by
  rw [Side.appendElem]
  split
  case isTrue hex =>
    rw [sortedSide, priceList] at hs ⊢
    dsimp only
    rw [List.map_map]
    have : s.levels.map ((fun l => l.price) ∘
        (fun l => if l.price = el.ord.price then l.appendElem el else l))
        = s.levels.map (fun l => l.price) := by
      refine List.map_congr_left ?_
      intro l _
      by_cases hp : l.price = el.ord.price <;> simp [Function.comp, hp, Queue.appendElem]
    rw [this]
    exact hs
  case isFalse hex =>
    rw [sortedSide, priceList] at hs ⊢
    dsimp only
    have hne : ∀ l ∈ s.levels, ¬ l.price = (Queue.appendElem ⟨el.ord.price, 0, []⟩ el).price := by
      intro l hl
      have := List.find?_eq_none.mp (by
        cases hfind : s.levels.find? (fun l => decide (l.price = el.ord.price))
        · rfl
        · rw [hfind] at hex; simp at hex) l hl
      simpa [Queue.appendElem] using this
    exact sorted_insertLevel _ s.levels hs hne

theorem push_sorted (e : Engine) (o : Order) (hsA : sortedSide e.asks)
    (hsB : sortedSide e.bids) :
    sortedSide (e.push o).asks ∧ sortedSide (e.push o).bids := by
  rw [Engine.push]
  split
  · exact ⟨sortedSide_appendElem _ _ hsA, hsB⟩
  · exact ⟨hsA, sortedSide_appendElem _ _ hsB⟩

theorem appendElem_priceList_mem (s : Side) (el : Elem) :
    ∀ p ∈ priceList (s.appendElem el), p = el.ord.price ∨ p ∈ priceList s := by
  rw [Side.appendElem]
  split
  · intro p hp
    rw [priceList] at hp
    dsimp only at hp
    rw [List.map_map] at hp
    right
    rw [priceList]
    have : s.levels.map ((fun l => l.price) ∘
        (fun l => if l.price = el.ord.price then l.appendElem el else l))
        = s.levels.map (fun l => l.price) := by
      refine List.map_congr_left ?_
      intro l _
      by_cases hq : l.price = el.ord.price <;> simp [Function.comp, hq, Queue.appendElem]
    rwa [this] at hp
  · intro p hp
    rw [priceList] at hp
    dsimp only at hp
    rcases insertLevel_priceList_mem _ s.levels p hp with h | h
    · left
      rw [h]
      rfl
    · exact Or.inr h

theorem uncrossed_mono (e e' : Engine)
    (hA : List.Sublist (priceList e'.asks) (priceList e.asks))
    (hB : List.Sublist (priceList e'.bids) (priceList e.bids))
    (hsA : sortedSide e.asks) (hsB : sortedSide e.bids)
    (hu : uncrossedB e = true) : uncrossedB e' = true := by
  rw [uncrossedB]
  cases hbq : e'.bids.maxPrice with
  | none => rfl
  | some bq =>
    cases haq : e'.asks.minPrice with
    | none => rfl
    | some aq =>
      simp only [decide_eq_true_eq]
      have hbqm : bq.price ∈ priceList e.bids :=
        hB.subset (List.mem_map.mpr ⟨bq, List.mem_of_mem_getLast? hbq, rfl⟩)
      have haqm : aq.price ∈ priceList e.asks := by
        refine hA.subset (List.mem_map.mpr ⟨aq, ?_, rfl⟩)
        have : aq ∈ e'.asks.levels.head?.toList := by rw [← Side.minPrice, haq]; simp
        cases hl : e'.asks.levels with
        | nil => rw [Side.minPrice, hl] at haq; cases haq
        | cons x t =>
          rw [Side.minPrice, hl] at haq
          cases haq
          simp
      obtain ⟨bl, hbl, hblp⟩ := List.mem_map.mp hbqm
      obtain ⟨al, hal, halp⟩ := List.mem_map.mp haqm
      obtain ⟨bmax, hbmax⟩ : ∃ bmax, e.bids.maxPrice = some bmax := by
        cases hm : e.bids.maxPrice with
        | none =>
          rw [Side.maxPrice, List.getLast?_eq_none_iff] at hm
          rw [hm] at hbl
          cases hbl
        | some x => exact ⟨x, rfl⟩
      obtain ⟨amin, hamin⟩ : ∃ amin, e.asks.minPrice = some amin := by
        cases hm : e.asks.minPrice with
        | none =>
          rw [Side.minPrice, List.head?_eq_none_iff] at hm
          rw [hm] at hal
          cases hal
        | some x => exact ⟨x, rfl⟩
      have h1 : bl.price ≤ bmax.price := maxPrice_ge e.bids hsB hbmax bl hbl
      have h2 : amin.price ≤ al.price := minPrice_le e.asks hsA hamin al hal
      have h3 : bmax.price < amin.price := by
        rw [uncrossedB, hbmax, hamin] at hu
        simpa using hu
      rw [← hblp, ← halp] at *
      linarith

theorem setOppUpdate_priceLists (e : Engine) (sell : Bool) (p : Value) (eid : Nat)
    (qty : Value) :
    priceList ((e.setOpp sell ((e.opp sell).updateLevelQty p eid qty)).asks) = priceList e.asks
    ∧ priceList ((e.setOpp sell ((e.opp sell).updateLevelQty p eid qty)).bids)
        = priceList e.bids := by
  cases sell <;> simp [Engine.setOpp, Engine.opp, updateLevelQty_priceList]

theorem matchLoop_priceList (fh : FeeHandler) :
    ∀ (fuel : Nat) (e : Engine) (w : Wallets) (taker : Order) (evs : List Event)
      (r : Engine × Wallets × Order × List Event),
      Engine.matchLoop fh fuel e w taker evs = some r →
      List.Sublist (priceList r.1.asks) (priceList e.asks)
      ∧ List.Sublist (priceList r.1.bids) (priceList e.bids) := by
  intro fuel
  induction fuel with
  | zero =>
    intro e w taker evs r h
    simp only [Engine.matchLoop] at h
    split at h
    · cases h; exact ⟨List.Sublist.refl _, List.Sublist.refl _⟩
    · split at h
      · cases h
      · cases h; exact ⟨List.Sublist.refl _, List.Sublist.refl _⟩
  | succ fuel ih =>
    intro e w taker evs r h
    simp only [Engine.matchLoop] at h
    split at h
    case h_1 hb => cases h; exact ⟨List.Sublist.refl _, List.Sublist.refl _⟩
    case h_2 bq hb =>
      split at h
      · split at h
        · cases h
        · rename_i makerEl hhead
          try dsimp only at h
          split at h
          · have hrec := ih _ _ _ _ _ h
            have hp := pull_priceList e makerEl.ord
            exact ⟨hrec.1.trans hp.1, hrec.2.trans hp.2⟩
          · split at h
            · have hrec := ih _ _ _ _ _ h
              have hp := pull_priceList e makerEl.ord
              exact ⟨hrec.1.trans hp.1, hrec.2.trans hp.2⟩
            · have hrec := ih _ _ _ _ _ h
              have hp := setOppUpdate_priceLists e taker.sell bq.price makerEl.eid
                (makerEl.ord.quantity - taker.quantity)
              rw [hp.1, hp.2] at hrec
              exact hrec
      · cases h; exact ⟨List.Sublist.refl _, List.Sublist.refl _⟩

theorem crosses_false_all (e : Engine) (taker : Order) (bq : Queue)
    (hb : e.bestOpp taker.sell = some bq)
    (hsA : sortedSide e.asks) (hsB : sortedSide e.bids)
    (hc : crosses taker bq.price = false) :
    ∀ l ∈ (e.opp taker.sell).levels, crosses taker l.price = false := by
  intro l hl
  rw [crosses] at hc ⊢
  by_cases hp0 : taker.price = 0
  · rw [if_pos hp0] at hc
    cases hc
  · rw [if_neg hp0] at hc ⊢
    cases hsell : taker.sell with
    | true =>
      rw [if_pos rfl] at *
      rw [Engine.bestOpp, if_pos hsell] at hb
      rw [Engine.opp, if_pos hsell] at hl
      simp only [hsell, if_true, decide_eq_false_iff_not, not_le] at hc ⊢
      exact lt_of_le_of_lt (maxPrice_ge e.bids hsB hb l hl) hc
    | false =>
      rw [Engine.bestOpp, if_neg (by simp [hsell])] at hb
      rw [Engine.opp, if_neg (by simp [hsell])] at hl
      simp only [hsell, Bool.false_eq_true, if_false, decide_eq_false_iff_not, not_le] at hc ⊢
      exact lt_of_lt_of_le hc (minPrice_le e.asks hsA hb l hl)

theorem matchLoop_exit (fh : FeeHandler) :
    ∀ (fuel : Nat) (e : Engine) (w : Wallets) (taker : Order) (evs : List Event)
      (r : Engine × Wallets × Order × List Event),
      Engine.matchLoop fh fuel e w taker evs = some r →
      sortedSide e.asks → sortedSide e.bids →
      (r.2.2.1.sell = taker.sell ∧ r.2.2.1.price = taker.price ∧
       (0 < r.2.2.1.quantity →
         ∀ l ∈ (Engine.opp r.1 taker.sell).levels, crosses taker l.price = false)) := by
  intro fuel
  induction fuel with
  | zero =>
    intro e w taker evs r h hsA hsB
    simp only [Engine.matchLoop] at h
    split at h
    case h_1 hb =>
      cases h
      refine ⟨rfl, rfl, fun _ l hl => ?_⟩
      exfalso
      revert hb
      rw [Engine.bestOpp, Engine.opp] at *
      revert hl
      split
      · intro hl hb
        rw [Side.maxPrice, List.getLast?_eq_none_iff] at hb
        rw [hb] at hl
        cases hl
      · intro hl hb
        rw [Side.minPrice, List.head?_eq_none_iff] at hb
        rw [hb] at hl
        cases hl
    case h_2 bq hb =>
      split at h
      · cases h
      · cases h
        refine ⟨rfl, rfl, fun hq l hl => ?_⟩
        rename_i hcond
        rw [not_and_or] at hcond
        rcases hcond with hq' | hc
        · exact absurd hq hq'
        · exact crosses_false_all e taker bq hb hsA hsB
            (Bool.not_eq_true _ ▸ (by simpa using hc)) l hl
  | succ fuel ih =>
    intro e w taker evs r h hsA hsB
    simp only [Engine.matchLoop] at h
    split at h
    case h_1 hb =>
      cases h
      refine ⟨rfl, rfl, fun _ l hl => ?_⟩
      exfalso
      revert hb
      rw [Engine.bestOpp, Engine.opp] at *
      revert hl
      split
      · intro hl hb
        rw [Side.maxPrice, List.getLast?_eq_none_iff] at hb
        rw [hb] at hl
        cases hl
      · intro hl hb
        rw [Side.minPrice, List.head?_eq_none_iff] at hb
        rw [hb] at hl
        cases hl
    case h_2 bq hb =>
      split at h
      · split at h
        · cases h
        · rename_i makerEl hhead
          try dsimp only at h
          split at h
          · have hp := pull_priceList e makerEl.ord
            have hrec := ih _ _ _ _ _ h (hsA.sublist hp.1) (hsB.sublist hp.2)
            exact ⟨hrec.1, hrec.2.1, fun hq l hl => hrec.2.2 hq l hl⟩
          · split at h
            · have hp := pull_priceList e makerEl.ord
              have hrec := ih _ _ _ _ _ h (hsA.sublist hp.1) (hsB.sublist hp.2)
              exact ⟨hrec.1, hrec.2.1, fun hq l hl => hrec.2.2 hq l hl⟩
            · have hp := setOppUpdate_priceLists e taker.sell bq.price makerEl.eid
                (makerEl.ord.quantity - taker.quantity)
              have hrec := ih _ _ _ _ _ h (by rw [sortedSide, hp.1]; exact hsA)
                (by rw [sortedSide, hp.2]; exact hsB)
              exact ⟨hrec.1, hrec.2.1, fun hq l hl => hrec.2.2 hq l hl⟩
      · cases h
        refine ⟨rfl, rfl, fun hq l hl => ?_⟩
        rename_i hcond
        rw [not_and_or] at hcond
        rcases hcond with hq' | hc
        · exact absurd hq hq'
        · exact crosses_false_all e taker bq hb hsA hsB
            (Bool.not_eq_true _ ▸ (by simpa using hc)) l hl

theorem uncrossed_push (e1 : Engine) (o1 : Order)
    (hsA : sortedSide e1.asks) (hsB : sortedSide e1.bids)
    (hu : uncrossedB e1 = true)
    (hnc : ∀ l ∈ (e1.opp o1.sell).levels, crosses o1 l.price = false) :
    uncrossedB (e1.push o1) = true := by
  rw [Engine.push]
  by_cases hs : o1.sell = true
  · rw [if_pos hs]
    rw [uncrossedB]
    dsimp only
    cases hbq : e1.bids.maxPrice with
    | none => rfl
    | some bq =>
      cases haq : (e1.asks.appendElem ⟨e1.nextEid, o1⟩).minPrice with
      | none => rfl
      | some aq =>
        simp only [decide_eq_true_eq]
        have hbql : bq ∈ e1.bids.levels := List.mem_of_mem_getLast? hbq
        have hcb := hnc bq (by rw [Engine.opp, if_pos hs]; exact hbql)
        rw [crosses] at hcb
        by_cases hp0 : o1.price = 0
        · rw [if_pos hp0] at hcb; cases hcb
        rw [if_neg hp0, if_pos hs] at hcb
        have hblt : bq.price < o1.price := by simpa using hcb
        have haqm : aq.price ∈ priceList (e1.asks.appendElem ⟨e1.nextEid, o1⟩) := by
          rw [priceList]
          exact List.mem_map.mpr ⟨aq, List.mem_of_mem_head? haq, rfl⟩
        rcases appendElem_priceList_mem _ _ _ haqm with h | h
        · rw [h]; exact hblt
        · obtain ⟨al, hal, halp⟩ := List.mem_map.mp h
          obtain ⟨amin, hamin⟩ : ∃ amin, e1.asks.minPrice = some amin := by
            cases hm : e1.asks.minPrice with
            | none =>
              rw [Side.minPrice, List.head?_eq_none_iff] at hm
              rw [hm] at hal
              cases hal
            | some x => exact ⟨x, rfl⟩
          have h2 : amin.price ≤ al.price := minPrice_le e1.asks hsA hamin al hal
          have h3 : bq.price < amin.price := by
            rw [uncrossedB, hbq, hamin] at hu
            simpa using hu
          rw [← halp]
          linarith
  · rw [if_neg hs]
    rw [uncrossedB]
    dsimp only
    cases hbq : (e1.bids.appendElem ⟨e1.nextEid, o1⟩).maxPrice with
    | none => rfl
    | some bq =>
      cases haq : e1.asks.minPrice with
      | none => rfl
      | some aq =>
        simp only [decide_eq_true_eq]
        have haql : aq ∈ e1.asks.levels := List.mem_of_mem_head? haq
        have hca := hnc aq (by rw [Engine.opp, if_neg hs]; exact haql)
        rw [crosses] at hca
        by_cases hp0 : o1.price = 0
        · rw [if_pos hp0] at hca; cases hca
        rw [if_neg hp0, if_neg hs] at hca
        have halt : o1.price < aq.price := by simpa using hca
        have hbqm : bq.price ∈ priceList (e1.bids.appendElem ⟨e1.nextEid, o1⟩) := by
          rw [priceList]
          exact List.mem_map.mpr ⟨bq, List.mem_of_mem_getLast? hbq, rfl⟩
        rcases appendElem_priceList_mem _ _ _ hbqm with h | h
        · rw [h]; exact halt
        · obtain ⟨bl, hbl, hblp⟩ := List.mem_map.mp h
          obtain ⟨bmax, hbmax⟩ : ∃ bmax, e1.bids.maxPrice = some bmax := by
            cases hm : e1.bids.maxPrice with
            | none =>
              rw [Side.maxPrice, List.getLast?_eq_none_iff] at hm
              rw [hm] at hbl
              cases hbl
            | some x => exact ⟨x, rfl⟩
          have h2 : bl.price ≤ bmax.price := maxPrice_ge e1.bids hsB hbmax bl hbl
          have h3 : bmax.price < aq.price := by
            rw [uncrossedB, hbmax, haq] at hu
            simpa using hu
          rw [← hblp]
          linarith

theorem crosses_eqv (a b : Order) (h1 : a.price = b.price) (h2 : a.sell = b.sell)
    (x : Value) : crosses a x = crosses b x := by
  rw [crosses, crosses, h1, h2]

theorem bookInv_place (fh : FeeHandler) (e : Engine) (w : Wallets) (o : Order)
    (r : Option Err × Engine × Wallets × List Event)
    (h : e.placeOrder fh w o = some r) (hi : bookInv e) : bookInv r.2.1 := by
  obtain ⟨hsA, hsB, hu⟩ := hi
  rw [Engine.placeOrder] at h
  split at h
  · cases h; exact ⟨hsA, hsB, hu⟩
  · split at h
    case h_1 err hcp => cases h; exact ⟨hsA, hsB, hu⟩
    case h_2 hcp =>
      split at h
      case h_1 hml => cases h
      case h_2 e1 w1 o1 evs1 hml =>
        have hpl := matchLoop_priceList fh _ _ _ _ _ _ hml
        have hs1A : sortedSide e1.asks := hsA.sublist hpl.1
        have hs1B : sortedSide e1.bids := hsB.sublist hpl.2
        have hu1 : uncrossedB e1 = true := uncrossed_mono e e1 hpl.1 hpl.2 hsA hsB hu
        have hexit := matchLoop_exit fh _ _ _ _ _ _ hml hsA hsB
        split at h
        case isTrue hq =>
          cases h
          have hnc : ∀ l ∈ (e1.opp o1.sell).levels, crosses o1 l.price = false := by
            intro l hl
            rw [crosses_eqv o1 o hexit.2.1 hexit.1]
            refine hexit.2.2 hq l ?_
            rw [hexit.1] at hl
            exact hl
          exact ⟨(push_sorted e1 o1 hs1A hs1B).1, (push_sorted e1 o1 hs1A hs1B).2,
            uncrossed_push e1 o1 hs1A hs1B hu1 hnc⟩
        case isFalse =>
          cases h
          exact ⟨hs1A, hs1B, hu1⟩

theorem replace_priceLists (e : Engine) (w : Wallets) (o n : Order) :
    priceList (e.replaceOrder w o n).2.1.asks = priceList e.asks
    ∧ priceList (e.replaceOrder w o n).2.1.bids = priceList e.bids := by
  have key : ∀ (s : Side) (eid : Nat) (oldQty : Value),
      priceList { s with levels := s.levels.map (fun l =>
        if l.price = n.price then
          { l with volume := n.quantity - oldQty + l.volume,
                   orders := l.orders.map (fun x =>
                     if x.eid = eid then ⟨x.eid, n⟩ else x) }
        else l) } = priceList s := by
    intro s eid oldQty
    rw [priceList, priceList]
    dsimp only
    rw [List.map_map]
    refine List.map_congr_left ?_
    intro l _
    by_cases hp : l.price = n.price <;> simp [Function.comp, hp]
  rw [Engine.replaceOrder]
  dsimp only
  repeat' split
  all_goals try exact ⟨rfl, rfl⟩
  all_goals
    first
      | exact ⟨key e.asks _ _, rfl⟩
      | exact ⟨rfl, key e.bids _ _⟩

theorem uncrossedB_via (e : Engine) :
    uncrossedB e = (match (priceList e.bids).getLast?, (priceList e.asks).head? with
      | some b, some a => decide (b < a)
      | _, _ => true) := by
  rw [uncrossedB, Side.maxPrice, Side.minPrice, priceList, priceList,
    List.getLast?_map, List.head?_map]
  cases e.bids.levels.getLast? <;> cases e.asks.levels.head? <;> rfl

theorem bookInv_replace (e : Engine) (w : Wallets) (o n : Order) (hi : bookInv e) :
    bookInv (e.replaceOrder w o n).2.1 := by
  obtain ⟨hsA, hsB, hu⟩ := hi
  have hp := replace_priceLists e w o n
  refine ⟨?_, ?_, ?_⟩
  · rw [sortedSide, hp.1]; exact hsA
  · rw [sortedSide, hp.2]; exact hsB
  · rw [uncrossedB_via, hp.1, hp.2, ← uncrossedB_via]; exact hu

theorem bookInv_cancel (e : Engine) (w : Wallets) (o : Order) (hi : bookInv e) :
    bookInv (e.cancelOrder w o).1 := by
  obtain ⟨hsA, hsB, hu⟩ := hi
  have hc : (e.cancelOrder w o).1 = e.pull o := rfl
  have hp := pull_priceList e o
  rw [hc]
  exact ⟨hsA.sublist hp.1, hsB.sublist hp.2, uncrossed_mono e _ hp.1 hp.2 hsA hsB hu⟩

theorem bookInv_reachable (e : Engine) (w : Wallets) (h : ReachableNP e w) :
    bookInv e := by
  induction h with
  | init base quote w =>
    refine ⟨?_, ?_, ?_⟩
    · show List.Sorted _ _
      simp [newEngine, priceList]
    · show List.Sorted _ _
      simp [newEngine, priceList]
    · rfl
  | place fh o r hr hml ih => exact bookInv_place fh _ _ o r hml ih
  | replace o n hr ih => exact bookInv_replace _ _ o n ih
  | cancel o hr ih => exact bookInv_cancel _ _ o ih

/-- C5 (amended).  In every state reachable by the public operations other
than `PushOrder` (which performs no matching or validation at all and can
trivially create a crossed book), whenever both sides are non-empty the best
bid is strictly below the best ask: the book is never crossed at rest. -/
theorem claim_C5 (e : Engine) (w : Wallets) (h : ReachableNP e w) :
    uncrossedB e = true :=
  (bookInv_reachable e w h).2.2

/-- Counterexample to C5 as stated (reachability including `PushOrder`): two
pushes create a book whose best bid 100 is above its best ask 50. -/
theorem claim_C5_counterexample :
    ReachableP ce5Engine ⟨[], []⟩ ∧ uncrossedB ce5Engine = false :=
  ⟨ReachableP.push ⟨"a1", "w", true, 1, 50⟩
     (ReachableP.push ⟨"b1", "w", false, 1, 100⟩ (ReachableP.init "a" "d" ⟨[], []⟩)),
   by decide⟩

/-- Witness for C5 (amended) at a concretely reached state. -/
theorem claim_C5_witness : uncrossedB c8Res.2.1 = true :=
  claim_C5 c8Res.2.1 c8Res.2.2.1
    (ReachableNP.place emptyFeeHandler ⟨"1", "w1", true, 1, 10⟩ c8Res
      (ReachableNP.init "a" "d" ⟨[(("w1", "a"), 10)], []⟩) (by decide))

/-! ### Chunk 1: assoc-map and lookup lemmas under well-formedness -/

theorem assocGet_cons_ne {α β : Type} [DecidableEq α] (kv : α × β) (t : List (α × β)) (k : α)
    (h : kv.1 ≠ k) : assocGet (kv :: t) k = assocGet t k := by
  rw [assocGet, List.find?_cons_of_neg _ (by simpa using h), assocGet]

theorem assocGet_cons_self {α β : Type} [DecidableEq α] (kv : α × β) (t : List (α × β)) (k : α)
    (h : kv.1 = k) : assocGet (kv :: t) k = some kv.2 := by
  rw [assocGet, List.find?_cons_of_pos _ (by simpa using h)]
  rfl

theorem assocGet_assocDel_ne {α β : Type} [DecidableEq α] (l : List (α × β)) (k k' : α)
    (hne : k' ≠ k) : assocGet (assocDel l k) k' = assocGet l k' := by
  induction l with
  | nil => rfl
  | cons kv t ih =>
    by_cases hk : kv.1 = k
    · rw [assocDel, if_pos hk, assocGet_cons_ne kv t k' (by rw [hk]; exact hne.symm)]
    · rw [assocDel, if_neg hk]
      by_cases hk' : kv.1 = k'
      · rw [assocGet_cons_self _ _ _ hk', assocGet_cons_self _ _ _ hk']
      · rw [assocGet_cons_ne _ _ _ hk', assocGet_cons_ne _ _ _ hk']
        exact ih

theorem mem_assocDel {α β : Type} [DecidableEq α] (l : List (α × β)) (k : α) (p : α × β)
    (hnd : (l.map (fun q => q.1)).Nodup) (hp : p ∈ assocDel l k) : p ∈ l ∧ p.1 ≠ k := by
  induction l with
  | nil => simp [assocDel] at hp
  | cons kv t ih =>
    rw [List.map_cons, List.nodup_cons] at hnd
    by_cases hk : kv.1 = k
    · rw [assocDel, if_pos hk] at hp
      refine ⟨List.mem_cons_of_mem _ hp, ?_⟩
      intro hpk
      exact hnd.1 (List.mem_map.mpr ⟨p, hp, by rw [hpk, hk]⟩)
    · rw [assocDel, if_neg hk] at hp
      rcases List.mem_cons.mp hp with rfl | hp'
      · exact ⟨List.mem_cons_self _ _, hk⟩
      · obtain ⟨hmem, hne⟩ := ih hnd.2 hp'
        exact ⟨List.mem_cons_of_mem _ hmem, hne⟩

theorem map_fst_assocDel_sublist {α β : Type} [DecidableEq α] (l : List (α × β)) (k : α) :
    List.Sublist ((assocDel l k).map (fun q => q.1)) (l.map (fun q => q.1)) := by
  induction l with
  | nil => exact List.Sublist.refl _
  | cons kv t ih =>
    by_cases hk : kv.1 = k
    · rw [assocDel, if_pos hk, List.map_cons]
      exact List.sublist_cons_self _ _
    · rw [assocDel, if_neg hk, List.map_cons, List.map_cons]
      exact ih.cons₂ _

theorem find?_eid_of_mem_nodup (els : List Elem) (x : Elem) (hx : x ∈ els)
    (hnd : (els.map (fun y => y.eid)).Nodup) :
    els.find? (fun y => decide (y.eid = x.eid)) = some x := by
  induction els with
  | nil => cases hx
  | cons y t ih =>
    rw [List.map_cons, List.nodup_cons] at hnd
    by_cases hy : y.eid = x.eid
    · rw [List.find?_cons_of_pos _ (by simpa using hy)]
      rcases List.mem_cons.mp hx with rfl | hx'
      · rfl
      · exact absurd (hy ▸ List.mem_map.mpr ⟨x, hx', rfl⟩) hnd.1
    · rw [List.find?_cons_of_neg _ (by simpa using hy)]
      rcases List.mem_cons.mp hx with rfl | hx'
      · exact absurd rfl hy
      · exact ih hx' hnd.2

theorem findSome?_eid_of_mem : ∀ (ls : List Queue) (x : Elem),
    x ∈ (ls.map Queue.orders).flatten →
    ((ls.map Queue.orders).flatten.map (fun y => y.eid)).Nodup →
    ls.findSome? (fun l => l.orders.find? (fun y => decide (y.eid = x.eid))) = some x := by
  intro ls
  induction ls with
  | nil => intro x hx _; cases hx
  | cons l t ih =>
    intro x hx hnd
    rw [List.map_cons, List.flatten_cons] at hx hnd
    rw [List.map_append, List.nodup_append] at hnd
    rcases List.mem_append.mp hx with hx' | hx'
    · rw [List.findSome?_cons, find?_eid_of_mem_nodup l.orders x hx' hnd.1]
    · have hnone : l.orders.find? (fun y => decide (y.eid = x.eid)) = none := by
        rw [List.find?_eq_none]
        intro y hy
        simp only [decide_eq_true_eq]
        intro heq
        exact hnd.2.2 (List.mem_map.mpr ⟨y, hy, rfl⟩)
          (heq ▸ List.mem_map.mpr ⟨x, hx', rfl⟩)
      rw [List.findSome?_cons, hnone]
      exact ih x hx' hnd.2.1

theorem findEid_of_mem (s : Side) (x : Elem) (hx : x ∈ s.elems)
    (hnd : (s.elems.map (fun y => y.eid)).Nodup) : s.findEid x.eid = some x := by
  rw [Side.findEid]
  exact findSome?_eid_of_mem s.levels x hx hnd

theorem findElem_of_mem (e : Engine) (x : Elem)
    (hx : x ∈ e.asks.elems ++ e.bids.elems)
    (hnd : ((e.asks.elems ++ e.bids.elems).map (fun y => y.eid)).Nodup) :
    e.findElem x.eid = some x := by
  rw [List.map_append, List.nodup_append] at hnd
  rw [Engine.findElem]
  rcases List.mem_append.mp hx with hx' | hx'
  · rw [findEid_of_mem e.asks x hx' hnd.1]
    rfl
  · rw [findEid_eq_none e.asks x.eid (fun y hy heq =>
      hnd.2.2 (List.mem_map.mpr ⟨y, hy, heq⟩) (List.mem_map.mpr ⟨x, hx', rfl⟩))]
    rw [findEid_of_mem e.bids x hx' hnd.2.1]
    rfl

theorem level_price_unique (s : Side) (hs : sortedSide s) {l l' : Queue}
    (hl : l ∈ s.levels) (hl' : l' ∈ s.levels) (hp : l.price = l'.price) : l = l' := by
  have hnd : (s.levels.map (fun q => q.price)).Nodup := hs.nodup
  exact List.inj_on_of_nodup_map hnd hl hl' hp

theorem bestOpp_mem (e : Engine) (sb : Bool) (bq : Queue) (h : e.bestOpp sb = some bq) :
    bq ∈ (e.opp sb).levels := by
  cases sb
  · rw [Engine.bestOpp] at h
    simp only [Bool.false_eq_true, if_neg, ite_false] at h
    rw [Engine.opp]
    simp only [Bool.false_eq_true, ite_false]
    exact List.mem_of_mem_head? h
  · rw [Engine.bestOpp] at h
    simp only [ite_true] at h
    rw [Engine.opp]
    simp only [ite_true]
    exact List.mem_of_mem_getLast? h

theorem oppLevels_head (e : Engine) (sb : Bool) :
    (e.oppLevels sb).head? = e.bestOpp sb := by
  cases sb <;>
    simp [Engine.oppLevels, Engine.bestOpp, Side.minPrice, Side.maxPrice, List.head?_reverse]

theorem mem_oppLevels (e : Engine) (sb : Bool) (l : Queue) :
    l ∈ e.oppLevels sb ↔ l ∈ (e.opp sb).levels := by
  cases sb <;> simp [Engine.oppLevels, Engine.opp]

theorem oppLevels_eq_nil (e : Engine) (sb : Bool) (h : e.bestOpp sb = none) :
    e.oppLevels sb = [] := by
  rw [← List.head?_eq_none_iff, oppLevels_head, h]

theorem market_crosses (taker : Order) (p : Value) (h : taker.price = 0) :
    crosses taker p = true := by
  rw [crosses, if_pos h]

theorem matchLoop_of_nonpos (fh : FeeHandler) (fuel : Nat) (e : Engine) (w : Wallets)
    (taker : Order) (evs : List Event) (h : ¬ 0 < taker.quantity) :
    Engine.matchLoop fh fuel e w taker evs = some (e, w, taker, evs) := by
  cases fuel <;> cases hb : e.bestOpp taker.sell <;> simp [Engine.matchLoop, hb, h]

theorem wf_opp_sorted (e : Engine) (sb : Bool) (hwf : e.wf) : sortedSide (e.opp sb) := by
  cases sb
  · simpa [Engine.opp] using hwf.1
  · simpa [Engine.opp] using hwf.2.1

theorem wf_opp_levels (e : Engine) (sb : Bool) (hwf : e.wf) : (e.opp sb).wfLevels := by
  cases sb
  · simpa [Engine.opp] using hwf.2.2.1
  · simpa [Engine.opp] using hwf.2.2.2.1

theorem wf_level_volume_pos (s : Side) (hs : s.wfLevels) (l : Queue) (hl : l ∈ s.levels) :
    0 < l.volume := by
  have h1 := hs.1 l hl
  have h2 := hs.2.1 l hl
  have h3 := hs.2.2 l hl
  rw [h2]
  cases horders : l.orders with
  | nil => exact absurd horders h1
  | cons y t =>
    rw [elemsQty, List.map_cons, List.sum_cons]
    have hy : 0 < y.ord.quantity := (h3 y (horders ▸ List.mem_cons_self _ _)).2
    have ht : 0 ≤ (t.map (fun z => z.ord.quantity)).sum := by
      refine List.sum_nonneg ?_
      intro v hv
      obtain ⟨z, hz, rfl⟩ := List.mem_map.mp hv
      exact le_of_lt (h3 z (horders ▸ List.mem_cons_of_mem _ hz)).2
    linarith

theorem oppLevels_volume_nonneg (e : Engine) (sb : Bool) (hwf : e.wf) :
    ∀ l ∈ e.oppLevels sb, 0 ≤ l.volume := by
  intro l hl
  exact le_of_lt (wf_level_volume_pos (e.opp sb) (wf_opp_levels e sb hwf) l
    ((mem_oppLevels e sb l).mp hl))

theorem oppVolume_nonneg (e : Engine) (sb : Bool) (hwf : e.wf) : 0 ≤ oppVolume e sb := by
  rw [oppVolume, levelsVolume]
  refine List.sum_nonneg ?_
  intro v hv
  obtain ⟨l, hl, rfl⟩ := List.mem_map.mp hv
  exact oppLevels_volume_nonneg e sb hwf l hl

/-! ### Chunk 2: the effect of `pull` on the best opposing level -/

theorem elemsQty_cons (x : Elem) (t : List Elem) :
    elemsQty (x :: t) = x.ord.quantity + elemsQty t := by
  rw [elemsQty, List.map_cons, List.sum_cons, elemsQty]

theorem nodup_head_tail_ne (bq : Queue) (t : List Queue)
    (hnd : ((bq :: t).map (fun q => q.price)).Nodup) :
    ∀ l ∈ t, l.price ≠ bq.price := by
  rw [List.map_cons, List.nodup_cons] at hnd
  intro l hl heq
  exact hnd.1 (heq ▸ List.mem_map.mpr ⟨l, hl, rfl⟩)

theorem pull_best (e : Engine) (sb : Bool) (bq : Queue) (mk : Elem) (tl : List Elem)
    (hwf : e.wf) (hb : e.bestOpp sb = some bq) (ho : bq.orders = mk :: tl) :
    e.pull mk.ord = { e.setOpp sb ((e.opp sb).removeElem mk) with
                      orders := assocDel e.orders mk.ord.id } := by
  have hbqmem := bestOpp_mem e sb bq hb
  have hmk : mk ∈ (e.opp sb).elems := by
    rw [Side.elems, List.mem_flatten]
    exact ⟨bq.orders, List.mem_map.mpr ⟨bq, hbqmem, rfl⟩, ho ▸ List.mem_cons_self _ _⟩
  have hmkAB : mk ∈ e.asks.elems ++ e.bids.elems := by
    cases sb
    · exact List.mem_append_left _ (by simpa [Engine.opp] using hmk)
    · exact List.mem_append_right _ (by simpa [Engine.opp] using hmk)
  have hlookup : assocGet e.orders mk.ord.id = some mk.eid :=
    hwf.2.2.2.2.2.2.2.2.2 mk hmkAB
  have hfind : e.findElem mk.eid = some mk := findElem_of_mem e mk hmkAB hwf.2.2.2.2.2.2.1
  rw [Engine.pull, hlookup]
  dsimp only
  rw [hfind]
  dsimp only
  cases sb
  · have hsell : mk.ord.sell = true := hwf.2.2.2.2.1 mk (by simpa [Engine.opp] using hmk)
    rw [if_pos hsell]
    simp [Engine.setOpp, Engine.opp]
  · have hsell : mk.ord.sell = false := hwf.2.2.2.2.2.1 mk (by simpa [Engine.opp] using hmk)
    rw [hsell]
    simp [Engine.setOpp, Engine.opp]

theorem removeFront_levels (p : Value) (mk : Elem) (tl : List Elem) (bq : Queue)
    (rest : List Queue) (horders : bq.orders = mk :: tl) (hpq : bq.price = p)
    (hrest : ∀ l ∈ rest, l.price ≠ p) :
    ((bq :: rest).map (fun l => if l.price = p then l.removeElem mk else l)).filter
        (fun l => !(decide (l.price = p) && l.orders.isEmpty))
      = if tl.isEmpty then rest
        else { bq with volume := bq.volume - mk.ord.quantity, orders := tl } :: rest := by
  rw [List.map_cons, if_pos hpq]
  have hbq' : bq.removeElem mk =
      { bq with volume := bq.volume - mk.ord.quantity, orders := tl } := by
    rw [Queue.removeElem, horders, List.eraseP_cons_of_pos (by simp)]
  rw [hbq']
  have hmaprest : rest.map (fun l => if l.price = p then l.removeElem mk else l) = rest := by
    conv_rhs => rw [← List.map_id rest]
    refine List.map_congr_left ?_
    intro l hl
    rw [if_neg (hrest l hl)]
    rfl
  rw [hmaprest, List.filter_cons]
  have hfrest : rest.filter (fun l => !(decide (l.price = p) && l.orders.isEmpty)) = rest :=
    List.filter_eq_self.mpr (fun l hl => by simp [hrest l hl])
  rw [hfrest]
  by_cases htl : tl.isEmpty
  · rw [if_pos htl]
    simp [hpq, htl]
  · rw [if_neg htl]
    simp [hpq, htl]

theorem oppLevels_pull (e : Engine) (sb : Bool) (bq : Queue) (mk : Elem) (tl : List Elem)
    (hwf : e.wf) (hb : e.bestOpp sb = some bq) (ho : bq.orders = mk :: tl) :
    (e.pull mk.ord).oppLevels sb
      = if tl.isEmpty then (e.oppLevels sb).tail
        else { bq with volume := bq.volume - mk.ord.quantity, orders := tl }
            :: (e.oppLevels sb).tail := by
  have hbqmem := bestOpp_mem e sb bq hb
  have hpq : bq.price = mk.ord.price :=
    ((wf_opp_levels e sb hwf).2.2 bq hbqmem mk (ho ▸ List.mem_cons_self _ _)).1.symm
  have hpull := pull_best e sb bq mk tl hwf hb ho
  rw [hpull]
  cases sb
  · -- buy: the asks walked ascending
    have hcons : e.asks.levels = bq :: e.asks.levels.tail :=
      List.eq_cons_of_mem_head? (by simp [Engine.bestOpp, Side.minPrice] at hb; simp [hb])
    have hrest : ∀ l ∈ e.asks.levels.tail, l.price ≠ mk.ord.price := by
      intro l hl
      rw [← hpq]
      exact nodup_head_tail_ne bq e.asks.levels.tail
        (by rw [← hcons]; exact hwf.1.nodup) l hl
    simp only [Engine.oppLevels, Engine.setOpp, Engine.opp, Bool.false_eq_true, if_neg,
      ite_false]
    rw [Side.removeElem]
    dsimp only
    conv_lhs => rw [hcons]
    rw [removeFront_levels mk.ord.price mk tl bq e.asks.levels.tail ho hpq hrest]
  · -- sell: the bids walked descending
    have hconsr : e.bids.levels.reverse = bq :: e.bids.levels.reverse.tail := by
      refine List.eq_cons_of_mem_head? ?_
      rw [List.head?_reverse]
      simp [Engine.bestOpp, Side.maxPrice] at hb
      simp [hb]
    have hrest : ∀ l ∈ e.bids.levels.reverse.tail, l.price ≠ mk.ord.price := by
      intro l hl
      rw [← hpq]
      refine nodup_head_tail_ne bq e.bids.levels.reverse.tail
        (by rw [← hconsr, List.map_reverse, List.nodup_reverse]; exact hwf.2.1.nodup) l hl
    simp only [Engine.oppLevels, Engine.setOpp, Engine.opp, ite_true]
    rw [Side.removeElem]
    dsimp only
    rw [← List.filter_reverse, ← List.map_reverse]
    conv_lhs => rw [hconsr]
    rw [removeFront_levels mk.ord.price mk tl bq e.bids.levels.reverse.tail ho hpq hrest]

theorem oppLevels_cons (e : Engine) (sb : Bool) (bq : Queue) (hb : e.bestOpp sb = some bq) :
    e.oppLevels sb = bq :: (e.oppLevels sb).tail :=
  List.eq_cons_of_mem_head? (by rw [oppLevels_head, hb]; rfl)

theorem oppFlat_pull (e : Engine) (sb : Bool) (bq : Queue) (mk : Elem) (tl : List Elem)
    (hwf : e.wf) (hb : e.bestOpp sb = some bq) (ho : bq.orders = mk :: tl) :
    oppFlat e sb = mk :: oppFlat (e.pull mk.ord) sb := by
  rw [oppFlat, oppFlat, oppLevels_pull e sb bq mk tl hwf hb ho]
  conv_lhs => rw [oppLevels_cons e sb bq hb]
  rw [List.map_cons, List.flatten_cons, ho]
  by_cases htl : tl.isEmpty
  · rw [if_pos htl, List.isEmpty_iff.mp htl]
    simp
  · rw [if_neg htl, List.map_cons, List.flatten_cons]
    simp

theorem pull_levels_mem (e : Engine) (sb : Bool) (bq : Queue) (mk : Elem) (tl : List Elem)
    (hwf : e.wf) (hb : e.bestOpp sb = some bq) (ho : bq.orders = mk :: tl) :
    ∀ l' ∈ ((e.pull mk.ord).opp sb).levels,
      (l' = { bq with volume := bq.volume - mk.ord.quantity, orders := tl } ∧ tl ≠ [])
      ∨ l' ∈ (e.opp sb).levels := by
  intro l' hl'
  have hm : l' ∈ (e.pull mk.ord).oppLevels sb := (mem_oppLevels _ _ _).mpr hl'
  rw [oppLevels_pull e sb bq mk tl hwf hb ho] at hm
  by_cases htl : tl.isEmpty
  · rw [if_pos htl] at hm
    exact Or.inr ((mem_oppLevels _ _ _).mp (List.mem_of_mem_tail hm))
  · rw [if_neg htl] at hm
    rcases List.mem_cons.mp hm with rfl | hm'
    · exact Or.inl ⟨rfl, fun h => htl (by rw [h]; rfl)⟩
    · exact Or.inr ((mem_oppLevels _ _ _).mp (List.mem_of_mem_tail hm'))

theorem opp_elems_perm_oppFlat (e : Engine) (sb : Bool) :
    List.Perm (e.opp sb).elems (oppFlat e sb) := by
  rw [oppFlat, Side.elems]
  cases sb
  · simp [Engine.oppLevels, Engine.opp]
  · simp only [Engine.oppLevels, Engine.opp, ite_true]
    rw [List.map_reverse]
    exact (List.Perm.flatten (List.reverse_perm _)).symm

theorem pull_elems_perm (e : Engine) (sb : Bool) (bq : Queue) (mk : Elem) (tl : List Elem)
    (hwf : e.wf) (hb : e.bestOpp sb = some bq) (ho : bq.orders = mk :: tl) :
    List.Perm (e.opp sb).elems (mk :: ((e.pull mk.ord).opp sb).elems) := by
  have h1 := opp_elems_perm_oppFlat e sb
  rw [oppFlat_pull e sb bq mk tl hwf hb ho] at h1
  exact h1.trans (List.Perm.cons mk (opp_elems_perm_oppFlat (e.pull mk.ord) sb).symm)

theorem oppVolume_pull (e : Engine) (sb : Bool) (bq : Queue) (mk : Elem) (tl : List Elem)
    (hwf : e.wf) (hb : e.bestOpp sb = some bq) (ho : bq.orders = mk :: tl) :
    oppVolume (e.pull mk.ord) sb = oppVolume e sb - mk.ord.quantity := by
  have hbqmem := bestOpp_mem e sb bq hb
  have hvol : bq.volume = elemsQty bq.orders := (wf_opp_levels e sb hwf).2.1 bq hbqmem
  rw [ho, elemsQty_cons] at hvol
  rw [oppVolume, oppVolume, oppLevels_pull e sb bq mk tl hwf hb ho]
  conv_rhs => rw [oppLevels_cons e sb bq hb]
  by_cases htl : tl.isEmpty
  · rw [if_pos htl]
    have htl' : tl = [] := List.isEmpty_iff.mp htl
    rw [htl', elemsQty] at hvol
    simp only [List.map_nil, List.sum_nil] at hvol
    rw [levelsVolume, levelsVolume, List.map_cons, List.sum_cons]
    linarith
  · rw [if_neg htl]
    rw [levelsVolume, levelsVolume, List.map_cons, List.map_cons, List.sum_cons, List.sum_cons]
    dsimp only
    ring

/-! ### Chunk 3: `pull` preserves engine well-formedness -/

theorem wf_pull (e : Engine) (sb : Bool) (bq : Queue) (mk : Elem) (tl : List Elem)
    (hwf : e.wf) (hb : e.bestOpp sb = some bq) (ho : bq.orders = mk :: tl) :
    (e.pull mk.ord).wf := by
  have hbqmem := bestOpp_mem e sb bq hb
  have hoppwf := wf_opp_levels e sb hwf
  have hoppsorted := wf_opp_sorted e sb hwf
  have hperm := pull_elems_perm e sb bq mk tl hwf hb ho
  have hchar := pull_levels_mem e sb bq mk tl hwf hb ho
  have hpull := pull_best e sb bq mk tl hwf hb ho
  have hmk : mk ∈ (e.opp sb).elems := by
    rw [Side.elems, List.mem_flatten]
    exact ⟨bq.orders, List.mem_map.mpr ⟨bq, hbqmem, rfl⟩, ho ▸ List.mem_cons_self _ _⟩
  have hmkAB : mk ∈ e.asks.elems ++ e.bids.elems := by
    cases sb
    · exact List.mem_append_left _ (by simpa [Engine.opp] using hmk)
    · exact List.mem_append_right _ (by simpa [Engine.opp] using hmk)
  have hlookupmk : assocGet e.orders mk.ord.id = some mk.eid :=
    hwf.2.2.2.2.2.2.2.2.2 mk hmkAB
  have hwfl' : ((e.pull mk.ord).opp sb).wfLevels := by
    refine ⟨?_, ?_, ?_⟩
    · intro l' hl'
      rcases hchar l' hl' with ⟨rfl, htl⟩ | hold
      · exact htl
      · exact hoppwf.1 l' hold
    · intro l' hl'
      rcases hchar l' hl' with ⟨rfl, htl⟩ | hold
      · have hv := hoppwf.2.1 bq hbqmem
        rw [ho, elemsQty_cons] at hv
        show bq.volume - mk.ord.quantity = elemsQty tl
        linarith
      · exact hoppwf.2.1 l' hold
    · intro l' hl' x hx
      rcases hchar l' hl' with ⟨rfl, htl⟩ | hold
      · have hxbq : x ∈ bq.orders := ho ▸ List.mem_cons_of_mem _ hx
        exact hoppwf.2.2 bq hbqmem x hxbq
      · exact hoppwf.2.2 l' hold x hx
  have heqopp : ((e.pull mk.ord).opp sb) = (e.opp sb).removeElem mk := by
    rw [hpull]; cases sb <;> simp [Engine.opp, Engine.setOpp]
  have hsorted' : sortedSide ((e.pull mk.ord).opp sb) := by
    rw [heqopp]
    exact hoppsorted.sublist (removeElem_priceList (e.opp sb) mk)
  have hsubE : ∀ x ∈ ((e.pull mk.ord).opp sb).elems, x ∈ (e.opp sb).elems := by
    intro x hx
    exact hperm.mem_iff.mpr (List.mem_cons_of_mem _ hx)
  have hord : (e.pull mk.ord).orders = assocDel e.orders mk.ord.id := by
    rw [hpull]
  have hpermMap : ((e.opp sb).elems.map (fun y => y.eid)).Perm
      (mk.eid :: (((e.pull mk.ord).opp sb).elems.map (fun y => y.eid))) := by
    simpa using hperm.map (fun y => y.eid)
  obtain ⟨hsA, hsB, hwA, hwB, hfA, hfB, hnodE, hnodK, hfwd, hbwd⟩ := hwf
  have hsplit := List.nodup_append.mp (by rw [← List.map_append]; exact hnodE)
  have hnodE2 : ((e.asks.elems.map (fun y => y.eid)) ++
      (e.bids.elems.map (fun y => y.eid))).Nodup := by
    rw [← List.map_append]; exact hnodE
  cases sb with
  | false =>
    have hoF : e.opp false = e.asks := rfl
    have hoF' : (e.pull mk.ord).opp false = (e.pull mk.ord).asks := rfl
    have hbids : (e.pull mk.ord).bids = e.bids := by
      rw [hpull]; simp [Engine.setOpp]
    have hnodA' : ((e.pull mk.ord).asks.elems.map (fun y => y.eid)).Nodup ∧
        mk.eid ∉ (e.pull mk.ord).asks.elems.map (fun y => y.eid) := by
      have h1 : ((mk.eid :: ((e.pull mk.ord).asks.elems.map (fun y => y.eid)))).Nodup := by
        refine List.Perm.nodup ?_ hsplit.1
        rw [← hoF, ← hoF']
        exact hpermMap
      rw [List.nodup_cons] at h1
      exact ⟨h1.2, h1.1⟩
    refine ⟨?_, ?_, ?_, ?_, ?_, ?_, ?_, ?_, ?_, ?_⟩
    · rw [← hoF']; exact hsorted'
    · rw [hbids]; exact hsB
    · rw [← hoF']; exact hwfl'
    · rw [hbids]; exact hwB
    · intro x hx
      exact hfA x (by rw [← hoF]; exact hsubE x (by rw [hoF']; exact hx))
    · rw [hbids]; exact hfB
    · rw [List.map_append, hbids]
      have hpm : ((e.asks.elems.map (fun y => y.eid))).Perm
          (mk.eid :: ((e.pull mk.ord).asks.elems.map (fun y => y.eid))) := by
        rw [← hoF, ← hoF']
        exact hpermMap
      have hmid : ((mk.eid :: ((e.pull mk.ord).asks.elems.map (fun y => y.eid))) ++
          (e.bids.elems.map (fun y => y.eid))).Nodup :=
        (List.Perm.append_right _ hpm).nodup hnodE2
      exact hmid.sublist ((List.sublist_cons_self mk.eid
        ((e.pull mk.ord).asks.elems.map (fun y => y.eid))).append_right
        (e.bids.elems.map (fun y => y.eid)))
    · rw [hord]
      exact hnodK.sublist (map_fst_assocDel_sublist e.orders mk.ord.id)
    · intro p hp
      rw [hord] at hp
      obtain ⟨hpold, hpne⟩ := mem_assocDel e.orders mk.ord.id p hnodK hp
      obtain ⟨x, hxmem, hxeid, hxid⟩ := hfwd p hpold
      refine ⟨x, ?_, hxeid, hxid⟩
      rcases List.mem_append.mp hxmem with h1 | h2
      · have hx' : x ∈ mk :: ((e.pull mk.ord).opp false).elems :=
          hperm.mem_iff.mp (by rw [hoF]; exact h1)
        rcases List.mem_cons.mp hx' with rfl | hx''
        · exact absurd (hxid ▸ rfl) hpne.symm
        · exact List.mem_append_left _ (by rw [← hoF']; exact hx'')
      · exact List.mem_append_right _ (by rw [hbids]; exact h2)
    · intro x hx
      have hxold : x ∈ e.asks.elems ++ e.bids.elems := by
        rcases List.mem_append.mp hx with h1 | h2
        · exact List.mem_append_left _
            (by rw [← hoF]; exact hsubE x (by rw [hoF']; exact h1))
        · rw [hbids] at h2
          exact List.mem_append_right _ h2
      have hget := hbwd x hxold
      have hne : x.ord.id ≠ mk.ord.id := by
        intro heq
        have heid : x.eid = mk.eid := by
          rw [heq, hlookupmk] at hget
          exact (Option.some.inj hget).symm
        have hxmk : x = mk := List.inj_on_of_nodup_map hnodE hxold hmkAB heid
        subst hxmk
        rcases List.mem_append.mp hx with h1 | h2
        · exact hnodA'.2 (List.mem_map.mpr ⟨x, h1, rfl⟩)
        · rw [hbids] at h2
          exact hsplit.2.2 (List.mem_map.mpr ⟨x, by rw [← hoF]; exact hmk, rfl⟩)
            (List.mem_map.mpr ⟨x, h2, rfl⟩)
      rw [hord, assocGet_assocDel_ne e.orders mk.ord.id x.ord.id hne]
      exact hget
  | true =>
    have hoT : e.opp true = e.bids := rfl
    have hoT' : (e.pull mk.ord).opp true = (e.pull mk.ord).bids := rfl
    have hasks : (e.pull mk.ord).asks = e.asks := by
      rw [hpull]; simp [Engine.setOpp]
    have hnodB' : ((e.pull mk.ord).bids.elems.map (fun y => y.eid)).Nodup ∧
        mk.eid ∉ (e.pull mk.ord).bids.elems.map (fun y => y.eid) := by
      have h1 : ((mk.eid :: ((e.pull mk.ord).bids.elems.map (fun y => y.eid)))).Nodup := by
        refine List.Perm.nodup ?_ hsplit.2.1
        rw [← hoT, ← hoT']
        exact hpermMap
      rw [List.nodup_cons] at h1
      exact ⟨h1.2, h1.1⟩
    refine ⟨?_, ?_, ?_, ?_, ?_, ?_, ?_, ?_, ?_, ?_⟩
    · rw [hasks]; exact hsA
    · rw [← hoT']; exact hsorted'
    · rw [hasks]; exact hwA
    · rw [← hoT']; exact hwfl'
    · rw [hasks]; exact hfA
    · intro x hx
      exact hfB x (by rw [← hoT]; exact hsubE x (by rw [hoT']; exact hx))
    · rw [List.map_append, hasks]
      have hpm : ((e.bids.elems.map (fun y => y.eid))).Perm
          (mk.eid :: ((e.pull mk.ord).bids.elems.map (fun y => y.eid))) := by
        rw [← hoT, ← hoT']
        exact hpermMap
      have hmid : ((e.asks.elems.map (fun y => y.eid)) ++
          (mk.eid :: ((e.pull mk.ord).bids.elems.map (fun y => y.eid)))).Nodup :=
        (List.Perm.append_left _ hpm).nodup hnodE2
      exact hmid.sublist ((List.sublist_cons_self mk.eid
        ((e.pull mk.ord).bids.elems.map (fun y => y.eid))).append_left
        (e.asks.elems.map (fun y => y.eid)))
    · rw [hord]
      exact hnodK.sublist (map_fst_assocDel_sublist e.orders mk.ord.id)
    · intro p hp
      rw [hord] at hp
      obtain ⟨hpold, hpne⟩ := mem_assocDel e.orders mk.ord.id p hnodK hp
      obtain ⟨x, hxmem, hxeid, hxid⟩ := hfwd p hpold
      refine ⟨x, ?_, hxeid, hxid⟩
      rcases List.mem_append.mp hxmem with h1 | h2
      · exact List.mem_append_left _ (by rw [hasks]; exact h1)
      · have hx' : x ∈ mk :: ((e.pull mk.ord).opp true).elems :=
          hperm.mem_iff.mp (by rw [hoT]; exact h2)
        rcases List.mem_cons.mp hx' with rfl | hx''
        · exact absurd (hxid ▸ rfl) hpne.symm
        · exact List.mem_append_right _ (by rw [← hoT']; exact hx'')
    · intro x hx
      have hxold : x ∈ e.asks.elems ++ e.bids.elems := by
        rcases List.mem_append.mp hx with h1 | h2
        · rw [hasks] at h1
          exact List.mem_append_left _ h1
        · exact List.mem_append_right _
            (by rw [← hoT]; exact hsubE x (by rw [hoT']; exact h2))
      have hget := hbwd x hxold
      have hne : x.ord.id ≠ mk.ord.id := by
        intro heq
        have heid : x.eid = mk.eid := by
          rw [heq, hlookupmk] at hget
          exact (Option.some.inj hget).symm
        have hxmk : x = mk := List.inj_on_of_nodup_map hnodE hxold hmkAB heid
        subst hxmk
        rcases List.mem_append.mp hx with h1 | h2
        · rw [hasks] at h1
          exact hsplit.2.2 (List.mem_map.mpr ⟨x, h1, rfl⟩)
            (List.mem_map.mpr ⟨x, by rw [← hoT]; exact hmk, rfl⟩)
        · exact hnodB'.2 (List.mem_map.mpr ⟨x, h2, rfl⟩)
      rw [hord, assocGet_assocDel_ne e.orders mk.ord.id x.ord.id hne]
      exact hget

/-! ### Chunk 4: accepted market orders fill completely -/

theorem setOpp_orders (e : Engine) (sb : Bool) (s : Side) :
    (e.setOpp sb s).orders = e.orders := by
  cases sb <;> rfl

theorem pull_orders_none (e : Engine) (o : Order) (k : String)
    (h : assocGet e.orders k = none) : assocGet (e.pull o).orders k = none := by
  rw [Engine.pull]
  split
  · exact h
  · split
    · exact h
    · split
      · exact assocGet_assocDel_none _ _ _ h
      · exact assocGet_assocDel_none _ _ _ h

theorem matchLoop_orders_none (fh : FeeHandler) (k : String) :
    ∀ (fuel : Nat) (e : Engine) (w : Wallets) (taker : Order) (evs : List Event)
      (r : Engine × Wallets × Order × List Event),
      Engine.matchLoop fh fuel e w taker evs = some r →
      assocGet e.orders k = none → assocGet r.1.orders k = none := by
  intro fuel
  induction fuel with
  | zero =>
    intro e w taker evs r h hn
    simp only [Engine.matchLoop] at h
    split at h
    · cases h; exact hn
    · split at h
      · cases h
      · cases h; exact hn
  | succ fuel ih =>
    intro e w taker evs r h hn
    simp only [Engine.matchLoop] at h
    split at h
    · cases h; exact hn
    · split at h
      · split at h
        · cases h
        · try dsimp only at h
          split at h
          · exact ih _ _ _ _ _ h (pull_orders_none _ _ _ hn)
          · split at h
            · exact ih _ _ _ _ _ h (pull_orders_none _ _ _ hn)
            · exact ih _ _ _ _ _ h (by rw [setOpp_orders]; exact hn)
      · cases h; exact hn

theorem hasPlaced_append (l1 l2 : List Event) :
    hasPlaced (l1 ++ l2) = (hasPlaced l1 || hasPlaced l2) := by
  simp [hasPlaced, List.any_append]

theorem hasPlaced_exchanged (e : Engine) (fh : FeeHandler) (w : Wallets) (o : Order)
    (v : Volume) (isM : Bool) :
    hasPlaced (e.updateBalanceOnExchanged fh w o v isM).2 = false := by
  rw [Engine.updateBalanceOnExchanged]
  cases isM <;> simp [hasPlaced]

theorem matchLoop_hasPlaced (fh : FeeHandler) :
    ∀ (fuel : Nat) (e : Engine) (w : Wallets) (taker : Order) (evs : List Event)
      (r : Engine × Wallets × Order × List Event),
      Engine.matchLoop fh fuel e w taker evs = some r →
      hasPlaced r.2.2.2 = hasPlaced evs := by
  intro fuel
  induction fuel with
  | zero =>
    intro e w taker evs r h
    simp only [Engine.matchLoop] at h
    split at h
    · cases h; rfl
    · split at h
      · cases h
      · cases h; rfl
  | succ fuel ih =>
    intro e w taker evs r h
    simp only [Engine.matchLoop] at h
    split at h
    · cases h; rfl
    · split at h
      · split at h
        · cases h
        · try dsimp only at h
          split at h
          · rw [ih _ _ _ _ _ h, hasPlaced_append, hasPlaced_append, hasPlaced_append,
              hasPlaced_exchanged, hasPlaced_exchanged]
            simp [hasPlaced]
          · split at h
            · rw [ih _ _ _ _ _ h, hasPlaced_append, hasPlaced_append, hasPlaced_append,
                hasPlaced_exchanged, hasPlaced_exchanged]
              simp [hasPlaced]
            · rw [ih _ _ _ _ _ h, hasPlaced_append, hasPlaced_append, hasPlaced_append,
                hasPlaced_exchanged, hasPlaced_exchanged]
              simp [hasPlaced]
      · cases h; rfl

theorem matchLoop_market (fh : FeeHandler) :
    ∀ (fuel : Nat) (e : Engine) (w : Wallets) (taker : Order) (evs : List Event)
      (r : Engine × Wallets × Order × List Event),
      Engine.matchLoop fh fuel e w taker evs = some r →
      e.wf → taker.price = 0 → 0 ≤ taker.quantity →
      taker.quantity ≤ oppVolume e taker.sell →
      r.2.2.1.quantity = 0 := by
  intro fuel
  induction fuel with
  | zero =>
    intro e w taker evs r h hwf hp hq0 hqv
    simp only [Engine.matchLoop] at h
    split at h
    · rename_i hbo
      cases h
      have h0 : oppVolume e taker.sell = 0 := by
        rw [oppVolume, oppLevels_eq_nil e taker.sell hbo, levelsVolume]
        rfl
      exact le_antisymm (h0 ▸ hqv) hq0
    · split at h
      · cases h
      · rename_i hcond
        cases h
        have hql : ¬ 0 < taker.quantity := fun hpos => hcond ⟨hpos, market_crosses taker _ hp⟩
        exact le_antisymm (not_lt.mp hql) hq0
  | succ fuel ih =>
    intro e w taker evs r h hwf hp hq0 hqv
    simp only [Engine.matchLoop] at h
    split at h
    · rename_i hbo
      cases h
      have h0 : oppVolume e taker.sell = 0 := by
        rw [oppVolume, oppLevels_eq_nil e taker.sell hbo, levelsVolume]
        rfl
      exact le_antisymm (h0 ▸ hqv) hq0
    · rename_i bq hbo
      split at h
      · split at h
        · cases h
        · rename_i makerEl hhead
          try dsimp only at h
          split at h
          · rw [matchLoop_of_nonpos fh fuel _ _ _ _ (by simp)] at h
            cases h
            simp
          · split at h
            · rename_i hlt
              have ho : bq.orders = makerEl :: bq.orders.tail :=
                List.eq_cons_of_mem_head? hhead
              have hwf1 := wf_pull e taker.sell bq makerEl bq.orders.tail hwf hbo ho
              have hvol1 := oppVolume_pull e taker.sell bq makerEl bq.orders.tail hwf hbo ho
              refine ih _ _ _ _ _ h hwf1 hp ?_ ?_
              · show 0 ≤ taker.quantity - makerEl.ord.quantity
                linarith
              · show taker.quantity - makerEl.ord.quantity ≤ _
                rw [hvol1]
                linarith
            · rw [matchLoop_of_nonpos fh fuel _ _ _ _ (by simp)] at h
              cases h
              simp
      · rename_i hcond
        cases h
        have hql : ¬ 0 < taker.quantity := fun hpos => hcond ⟨hpos, market_crosses taker _ hp⟩
        exact le_antisymm (not_lt.mp hql) hq0

theorem canPlace_market_liquid (e : Engine) (w : Wallets) (wid : String) (sell : Bool)
    (q : Value)
    (hcp : e.canPlace w wid sell (some q) (some 0) = none)
    (hvol : ∀ l ∈ e.oppLevels sell, 0 ≤ l.volume) :
    0 < q ∧ q ≤ oppVolume e sell := by
  rw [Engine.canPlace.eq_def] at hcp
  dsimp only at hcp
  by_cases hq : q ≤ 0
  · rw [if_pos hq] at hcp; cases hcp
  · rw [if_neg hq] at hcp
    have hq' : 0 < q := lt_of_not_le hq
    refine ⟨hq', ?_⟩
    rw [if_neg (lt_irrefl (0 : Value)), if_pos rfl] at hcp
    cases hpr : e.price sell q with
    | error err => simp [hpr] at hcp
    | ok mp =>
      by_contra hgt
      have hlt : oppVolume e sell < q := lt_of_not_le hgt
      have hspec := (priceWalk_spec (e.oppLevels sell) 0 q hq' hvol).1
      have herr : e.price sell q = Except.error Err.insufficientQuantity := by
        rw [Engine.price]
        exact hspec.mpr hlt
      rw [herr] at hpr
      cases hpr

/-! ### Claim C10: accepted market orders never rest -/

/-- C10. For every market order (`price.Sign() == 0`) that `PlaceOrder`
accepts (returns nil) against a well-formed book, the order is fully filled
and never rests: `CanPlace`'s market-price probe succeeds only when the
opposing side's total volume covers the order quantity, the match loop then
drives the quantity to zero, the residual-rest branch is not taken, no
`OnIncomingOrderPlaced` notification is emitted and no entry for the order
remains in the book's id-lookup map. -/
theorem claim_C10 (fh : FeeHandler) (e : Engine) (w : Wallets) (o : Order)
    (r : Option Err × Engine × Wallets × List Event)
    (hwf : e.wf) (hmkt : o.price = 0)
    (h : e.placeOrder fh w o = some r) (hok : r.1 = none) :
    hasPlaced r.2.2.2 = false ∧ assocGet r.2.1.orders o.id = none := by
  rw [Engine.placeOrder] at h
  by_cases hex : (assocGet e.orders o.id).isSome
  · rw [if_pos hex] at h
    cases h
    simp at hok
  · rw [if_neg hex] at h
    have hnone : assocGet e.orders o.id = none := Option.not_isSome_iff_eq_none.mp hex
    cases hcp : e.canPlace w o.owner o.sell (some o.quantity) (some o.price) with
    | some err =>
      rw [hcp] at h
      cases h
      simp at hok
    | none =>
      rw [hcp] at h
      rw [hmkt] at hcp
      have hvol := oppLevels_volume_nonneg e o.sell hwf
      obtain ⟨hq, hqv⟩ := canPlace_market_liquid e w o.owner o.sell o.quantity hcp hvol
      cases hm : Engine.matchLoop fh (e.asks.numOrders + e.bids.numOrders + 2) e w o [] with
      | none => rw [hm] at h; cases h
      | some res =>
        obtain ⟨e1, w1, o1, evs⟩ := res
        rw [hm] at h
        dsimp only at h
        have hq0 : o1.quantity = 0 :=
          matchLoop_market fh _ _ _ _ _ _ hm hwf hmkt (le_of_lt hq) hqv
        rw [if_neg (by rw [hq0]; exact lt_irrefl 0)] at h
        cases h
        constructor
        · rw [matchLoop_hasPlaced fh _ _ _ _ _ _ hm]
          rfl
        · exact matchLoop_orders_none fh o.id _ _ _ _ _ _ hm hnone

/-- Witness for C10: the concrete market sell above fills fully, emits no
placed notification and leaves no lookup entry. -/
theorem claim_C10_witness :
    hasPlaced c10Res.2.2.2 = false ∧ assocGet c10Res.2.1.orders "2" = none :=
  claim_C10 emptyFeeHandler c1Book ⟨[(("w2", "a"), 5)], []⟩ ⟨"2", "w2", true, 1, 0⟩ c10Res
    (by decide) (by decide) (by decide) (by decide)

/-! ### Claim C9: the event order of one `PlaceOrder` call -/

theorem existingIds_append (l1 l2 : List Event) :
    existingIds (l1 ++ l2) = existingIds l1 ++ existingIds l2 := by
  rw [existingIds, existingIds, existingIds, List.filterMap_append]

theorem existingIds_exchanged (e : Engine) (fh : FeeHandler) (w : Wallets) (o : Order)
    (v : Volume) (b : Bool) :
    existingIds (e.updateBalanceOnExchanged fh w o v b).2 = [] := by
  rw [Engine.updateBalanceOnExchanged]
  cases b <;> simp [existingIds]

theorem fillPhase_append (l1 l2 : List Event) (h1 : FillPhase l1) (h2 : FillPhase l2) :
    FillPhase (l1 ++ l2) := by
  induction h1 with
  | nilEv => simpa using h2
  | blockEv em et m t v a1 a2 a3 a4 x1 x2 x3 x4 hpair hrest ih =>
    simp only [List.cons_append]
    exact FillPhase.blockEv em et m t v a1 a2 a3 a4 x1 x2 x3 x4 hpair ih

theorem matchLoop_fillPhase (fh : FeeHandler) :
    ∀ (fuel : Nat) (e : Engine) (w : Wallets) (taker : Order) (evs : List Event)
      (r : Engine × Wallets × Order × List Event),
      Engine.matchLoop fh fuel e w taker evs = some r →
      FillPhase evs → FillPhase r.2.2.2 := by
  intro fuel
  induction fuel with
  | zero =>
    intro e w taker evs r h hfp
    simp only [Engine.matchLoop] at h
    split at h
    · cases h; exact hfp
    · split at h
      · cases h
      · cases h; exact hfp
  | succ fuel ih =>
    intro e w taker evs r h hfp
    simp only [Engine.matchLoop] at h
    split at h
    · cases h; exact hfp
    · split at h
      · split at h
        · cases h
        · rename_i makerEl hhead
          try dsimp only at h
          split at h
          · refine ih _ _ _ _ _ h ?_
            simp only [Engine.updateBalanceOnExchanged]
            dsimp only
            simp only [List.append_assoc, List.cons_append, List.nil_append]
            exact fillPhase_append _ _ hfp
              (FillPhase.blockEv _ _
                { makerEl.ord with quantity := makerEl.ord.quantity - makerEl.ord.quantity }
                { taker with quantity := taker.quantity - taker.quantity }
                _ _ _ _ _ _ _ _ _ (FillPairEv.dd _ _ _) FillPhase.nilEv)
          · split at h
            · refine ih _ _ _ _ _ h ?_
              simp only [Engine.updateBalanceOnExchanged]
              dsimp only
              simp only [List.append_assoc, List.cons_append, List.nil_append]
              exact fillPhase_append _ _ hfp
                (FillPhase.blockEv _ _
                  { makerEl.ord with quantity := makerEl.ord.quantity - makerEl.ord.quantity }
                  { taker with quantity := taker.quantity - makerEl.ord.quantity }
                  _ _ _ _ _ _ _ _ _ (FillPairEv.dp _ _ _) FillPhase.nilEv)
            · refine ih _ _ _ _ _ h ?_
              simp only [Engine.updateBalanceOnExchanged]
              dsimp only
              simp only [List.append_assoc, List.cons_append, List.nil_append]
              exact fillPhase_append _ _ hfp
                (FillPhase.blockEv _ _
                  { makerEl.ord with quantity := makerEl.ord.quantity - taker.quantity }
                  { taker with quantity := taker.quantity - taker.quantity }
                  _ _ _ _ _ _ _ _ _ (FillPairEv.pd _ _ _) FillPhase.nilEv)
      · cases h; exact hfp

theorem matchLoop_prefix (fh : FeeHandler) :
    ∀ (fuel : Nat) (e : Engine) (w : Wallets) (taker : Order) (evs : List Event)
      (r : Engine × Wallets × Order × List Event),
      Engine.matchLoop fh fuel e w taker evs = some r →
      e.wf →
      ∃ k, existingIds r.2.2.2 = existingIds evs ++ (bestFlatIds e taker.sell).take k := by
  intro fuel
  induction fuel with
  | zero =>
    intro e w taker evs r h hwf
    simp only [Engine.matchLoop] at h
    split at h
    · cases h; exact ⟨0, by simp⟩
    · split at h
      · cases h
      · cases h; exact ⟨0, by simp⟩
  | succ fuel ih =>
    intro e w taker evs r h hwf
    simp only [Engine.matchLoop] at h
    split at h
    · cases h; exact ⟨0, by simp⟩
    · rename_i bq hbo
      split at h
      · split at h
        · cases h
        · rename_i makerEl hhead
          have ho : bq.orders = makerEl :: bq.orders.tail :=
            List.eq_cons_of_mem_head? hhead
          have hhead_ids : bestFlatIds e taker.sell
              = makerEl.ord.id :: bestFlatIds (e.pull makerEl.ord) taker.sell := by
            rw [bestFlatIds, bestFlatIds,
              oppFlat_pull e taker.sell bq makerEl bq.orders.tail hwf hbo ho, List.map_cons]
          try dsimp only at h
          split at h
          · rw [matchLoop_of_nonpos fh fuel _ _ _ _ (by simp)] at h
            cases h
            refine ⟨1, ?_⟩
            rw [hhead_ids, List.take_succ_cons]
            rw [existingIds_append, existingIds_append, existingIds_exchanged,
              existingIds_exchanged, existingIds_append]
            simp [existingIds]
          · split at h
            · obtain ⟨k', hk'⟩ := ih _ _ _ _ _ h
                (wf_pull e taker.sell bq makerEl bq.orders.tail hwf hbo ho)
            
              refine ⟨k' + 1, ?_⟩
              rw [hk', hhead_ids, List.take_succ_cons]
              rw [existingIds_append, existingIds_append, existingIds_exchanged,
                existingIds_exchanged, existingIds_append]
              simp [existingIds]
            · rw [matchLoop_of_nonpos fh fuel _ _ _ _ (by simp)] at h
              cases h
              refine ⟨1, ?_⟩
              rw [hhead_ids, List.take_succ_cons]
              rw [existingIds_append, existingIds_append, existingIds_exchanged,
                existingIds_exchanged, existingIds_append]
              simp [existingIds]
      · cases h; exact ⟨0, by simp⟩

/-- C9. Within one `PlaceOrder` call on a well-formed book the listener
events come in exactly the claimed order: a sequence of fill blocks, each
being the existing-order notification, then the incoming-order notification
with the same volume, then the maker's balance and in-order callbacks, then
the taker's two balance callbacks; the fills consume the opposing book in
price-time match order (the maker ids form an initial prefix of the
opposing book flattened best price first, FIFO front first); and only after
all fills, if a residual rested, `OnIncomingOrderPlaced` followed by its two
wallet callbacks closes the trace. -/
theorem claim_C9 (fh : FeeHandler) (e : Engine) (w : Wallets) (o : Order)
    (r : Option Err × Engine × Wallets × List Event)
    (hwf : e.wf) (h : e.placeOrder fh w o = some r) :
    PlaceTrace r.2.2.2 ∧ ∃ k, existingIds r.2.2.2 = (bestFlatIds e o.sell).take k := by
  rw [Engine.placeOrder] at h
  by_cases hex : (assocGet e.orders o.id).isSome
  · rw [if_pos hex] at h
    cases h
    exact ⟨PlaceTrace.fills FillPhase.nilEv, 0, rfl⟩
  · rw [if_neg hex] at h
    cases hcp : e.canPlace w o.owner o.sell (some o.quantity) (some o.price) with
    | some err =>
      rw [hcp] at h
      cases h
      exact ⟨PlaceTrace.fills FillPhase.nilEv, 0, rfl⟩
    | none =>
      rw [hcp] at h
      cases hm : Engine.matchLoop fh (e.asks.numOrders + e.bids.numOrders + 2) e w o [] with
      | none => rw [hm] at h; cases h
      | some res =>
        obtain ⟨e1, w1, o1, evs⟩ := res
        rw [hm] at h
        try dsimp only at h
        have hfp : FillPhase evs := matchLoop_fillPhase fh _ _ _ _ _ _ hm FillPhase.nilEv
        obtain ⟨k, hk⟩ := matchLoop_prefix fh _ _ _ _ _ _ hm hwf
        by_cases hq : 0 < o1.quantity
        · rw [if_pos hq] at h
          cases h
          constructor
          · simp only [Engine.updateBalanceOnPlaced]
            try dsimp only
            exact PlaceTrace.rested o1 _ _ _ _ hfp
          · refine ⟨k, ?_⟩
            rw [existingIds_append, hk]
            simp [existingIds, Engine.updateBalanceOnPlaced]
        · rw [if_neg hq] at h
          cases h
          refine ⟨PlaceTrace.fills hfp, k, ?_⟩
          rw [hk]
          simp [existingIds]

/-- Witness for C9: the concrete one-fill-and-rest-free sell into `c1Book`
satisfies the claimed trace shape and match order. -/
theorem claim_C9_witness :
    PlaceTrace c1Res.2.2.2
    ∧ ∃ k, existingIds c1Res.2.2.2 = (bestFlatIds c1Book true).take k :=
  claim_C9 emptyFeeHandler c1Book ⟨[(("w2", "a"), 1)], []⟩ ⟨"2", "w2", true, 1, 10⟩ c1Res
    (by decide) (by decide)

end Fastme
